import Mathlib

/-!
# Layout engine of `drawing/svg.go` (lollipops)

A shallow embedding of `Settings.DrawSVG`: the aggregation loop that turns the
change list into lollipop markers, the stagger computation, the axis tick
selection and the region label fitting, followed by the properties proved
about them.

Conventions of the embedding.
* Go `float64` values are rationals (`ℚ`) and their arithmetic is exact; where
  rounding decides a property, the stagger loop is given a second time in
  IEEE-754 double arithmetic (`F64`, `maxStaggeredF`).
* Go `int` values are integers; the one addition that can leave the 64-bit
  range (`pops[idx].Cnt += cnt`) is wrapped explicitly with `wrapInt`.
  Sequence positions are non-negative `int`s, so their differences are exact.
* Go strings are Lean strings (valid UTF-8 text).
* Code of other files of the package that `svg.go` calls (`stripChangePos`,
  `Tick.Radius`, `MeasureFont`, `Settings.AutoWidth`, the Unicode tables) is a
  parameter of the definitions; `TickSlice.Less` and `TickSlice.NextBetter` are modelled from
  the design document.
-/

namespace Lollipops

/-! ## Data model -/

/-- A marker along the sequence axis (`Tick{spos, -i, cnt, col}`): position,
priority (or negated change-list index for lollipops), multiplicity, colour. -/
structure Tick where
  Pos : Int
  Pri : Int
  Cnt : Int
  Col : String
  deriving DecidableEq, Repr

/-- The fields of `Settings` that `DrawSVG` reads. -/
structure Settings where
  GraphicWidth : ℚ
  Padding : ℚ
  ShowLabels : Bool
  HideAxis : Bool
  HideMotifs : Bool
  HideDisordered : Bool
  SolidFillOnly : Bool
  DomainHeight : ℚ
  BackboneHeight : ℚ
  MotifHeight : ℚ
  AxisPadding : ℚ
  AxisHeight : ℚ
  LollipopRadius : ℚ
  LollipopHeight : ℚ
  TextPadding : ℚ
  SynonymousColor : String
  MutationColor : String

/-- The three capture groups `cpos[1]`, `cpos[2]`, `cpos[3]` of a match of
`stripChangePos`. -/
structure ChangePos where
  wild : String
  pos : String
  mutant : String
  deriving DecidableEq, Repr

/-- Two's-complement reduction of an integer to the range of a 64-bit Go `int`. -/
def wrapInt (x : Int) : Int := (x + 2 ^ 63) % 2 ^ 64 - 2 ^ 63

/-! ## Library functions used by the aggregation loop -/

/-- The white space set of package `fmt` (`isSpace`). -/
def isSpace (c : Char) : Bool :=
  let n := c.toNat
  (0x0009 ≤ n && n ≤ 0x000d) || n == 0x0020 || n == 0x0085 || n == 0x00a0 || n == 0x1680 ||
  (0x2000 ≤ n && n ≤ 0x200a) || n == 0x2028 || n == 0x2029 || n == 0x202f || n == 0x205f ||
  n == 0x3000

/-- `SkipSpace` of a `Sscanf` scan state: leading white space is dropped, a
newline is an error (`none`). -/
def skipSpace : List Char → Option (List Char)
  | [] => some []
  | c :: cs =>
    if c = '\n' then none
    else if isSpace c then skipSpace cs
    else some (c :: cs)

/-- The characters `scanNumber` accepts for the verb `%d`. -/
def isDecimalOrUnderscore (c : Char) : Bool := c.isDigit || c == '_'

/-- Value of a string of decimal digits. -/
def decimalValue (ds : List Char) : Nat :=
  ds.foldl (fun acc c => 10 * acc + (c.toNat - 48)) 0

/-- The token `scanNumber` reads and its value by `strconv.ParseInt(tok, 10, 64)`:
the longest run of digits and underscores, which must not be empty; a token
with an underscore or a value outside the 64-bit range is rejected. `neg`
tells that a minus sign was accepted before the token. -/
def scanToken (neg : Bool) (r : List Char) : Option Int :=
  let tok := r.takeWhile isDecimalOrUnderscore
  if tok = [] then none
  else if tok.any (fun c => c == '_') then none
  else
    let v : Int := if neg then -(decimalValue tok : Int) else (decimalValue tok : Int)
    if -(2 ^ 63) ≤ v ∧ v < 2 ^ 63 then some v else none

/-- The integer that `fmt.Sscanf(str, "%d", &x)` stores in `x`, or `none` when
the scan fails and `x` keeps its old value: white space is skipped, one sign is
accepted, then the number token is read. -/
def scanInt (str : String) : Option Int :=
  match skipSpace str.data with
  | none => none
  | some ('+' :: r) => scanToken false r
  | some ('-' :: r) => scanToken true r
  | some r => scanToken false r

/-- `unicode.ToLower` of one rune: the ASCII range is mapped as in the Go
source, the rest of Unicode through the case table `tbl`. -/
def toLowerRune (tbl : Char → Char) (c : Char) : Char :=
  if c.toNat < 128 then c.toLower else tbl c

/-- `strings.ToLower`. -/
def ToLower (tbl : Char → Char) (str : String) : String :=
  String.mk (str.data.map (toLowerRune tbl))

/-- Cut a string at the first occurrence of `sep`: `none` when
`strings.Contains(str, sep)` is false, otherwise the two parts of
`strings.SplitN(str, sep, 2)`. -/
def splitFirst (sep : Char) : List Char → Option (List Char × List Char)
  | [] => none
  | c :: cs =>
    if c = sep then some ([], cs)
    else (splitFirst sep cs).map (fun p => (c :: p.1, p.2))

/-! ## Aggregation loop (lines 53-82) -/

/-- What one iteration of the loop extracts from a descriptor: the stripped
label `chg`, the position `spos`, the count `cnt`, the lower-cased colour. -/
structure Desc where
  chg : String
  spos : Int
  cnt : Int
  col : String
  deriving DecidableEq, Repr

/-- The colour the iteration starts from for a descriptor with capture groups
`cpos` (lines 59-62). -/
def defaultColour (s : Settings) (cpos : ChangePos) : String :=
  if cpos.mutant ≠ "" ∧ cpos.mutant ≠ "=" ∧ cpos.mutant ≠ cpos.wild then s.MutationColor
  else s.SynonymousColor

/-- Lines 63-67: the count read after the first `@` (1 when there is no `@` or
the scan fails) and what is left of the descriptor. -/
def splitCount (chg : List Char) : Int × List Char :=
  match splitFirst '@' chg with
  | some parts => ((scanInt (String.mk parts.2)).getD 1, parts.1)
  | none => (1, chg)

/-- Lines 68-72: the colour after the first `#` (`col0` when there is no `#`)
and what is left of the descriptor. -/
def splitColour (col0 : String) (chg : List Char) : String × List Char :=
  match splitFirst '#' chg with
  | some parts => ("#" ++ String.mk parts.2, parts.1)
  | none => (col0, chg)

/-- Lines 56-75 of the loop body. `re` is `stripChangePos.FindStringSubmatch`;
when it finds no match, indexing `cpos` fails and the result is `none`. -/
def parseChange (re : String → Option ChangePos) (tbl : Char → Char) (s : Settings)
    (chg : String) : Option Desc :=
  match re chg with
  | none => none
  | some cpos =>
    let afterAt := splitCount chg.data
    let afterHash := splitColour (defaultColour s cpos) afterAt.2
    some
      { chg := String.mk afterHash.2
        spos := (scanInt cpos.pos).getD 0
        cnt := afterAt.1
        col := ToLower tbl afterHash.1 }

/-- The variables the loop updates: the change list (overwritten in place),
the map `popMatch` and the marker slice `pops`. -/
structure AggState where
  changelist : List String
  popMatch : List (String × Nat)
  pops : List Tick
  deriving DecidableEq, Repr

/-- The key under which a descriptor is looked up in `popMatch`: `chg+col`. -/
def Desc.key (d : Desc) : String := d.chg ++ d.col

/-- `pops[idx].Cnt += cnt`, in 64-bit arithmetic. -/
def addCnt (cnt : Int) (t : Tick) : Tick := { t with Cnt := wrapInt (t.Cnt + cnt) }

/-- Lines 73-81 for a parsed descriptor at index `i`. -/
def aggInsert (st : AggState) (i : Nat) (d : Desc) : AggState :=
  match st.popMatch.lookup d.key with
  | some idx =>
    { changelist := st.changelist.set i d.chg
      popMatch := st.popMatch
      pops := st.pops.modify (addCnt d.cnt) idx }
  | none =>
    { changelist := st.changelist.set i d.chg
      popMatch := (d.key, st.pops.length) :: st.popMatch
      pops := st.pops ++ [⟨d.spos, -(i : Int), d.cnt, d.col⟩] }

/-- One iteration of `for i, chg := range changelist`. -/
def aggStep (re : String → Option ChangePos) (tbl : Char → Char) (s : Settings)
    (st : AggState) (i : Nat) (chg : String) : Option AggState :=
  (parseChange re tbl s chg).map (aggInsert st i)

/-- The iterations from index `i` on, over the descriptors not yet visited. -/
def aggLoop (re : String → Option ChangePos) (tbl : Char → Char) (s : Settings) :
    Nat → List String → AggState → Option AggState
  | _, [], st => some st
  | i, chg :: rest, st =>
    match aggStep re tbl s st i chg with
    | none => none
    | some st1 => aggLoop re tbl s (i + 1) rest st1

/-- The whole loop, from `popMatch := make(map[string]int)` and `pops := TickSlice{}`. -/
def aggregate (re : String → Option ChangePos) (tbl : Char → Char) (s : Settings)
    (changelist : List String) : Option AggState :=
  aggLoop re tbl s 0 changelist ⟨changelist, [], []⟩

/-! ## Reference description of the aggregation (design document, section 4.1) -/

/-- The distinct elements of a list in the order of their first occurrence. -/
def firstOccurrences {κ : Type} [DecidableEq κ] : List κ → List κ
  | [] => []
  | k :: ks => k :: (firstOccurrences ks).filter (fun x => decide (x ≠ k))

/-- Sum of the counts of the descriptors whose key is `k`. -/
def countSum (ds : List Desc) (k : String) : Int :=
  ((ds.filter (fun d => decide (d.key = k))).map Desc.cnt).sum

/-- The descriptors of a change list, when every one of them is matched. -/
def parseAll (re : String → Option ChangePos) (tbl : Char → Char) (s : Settings) :
    List String → Option (List Desc)
  | [] => some []
  | chg :: rest =>
    match parseChange re tbl s chg with
    | none => none
    | some d => (parseAll re tbl s rest).map (fun ds => d :: ds)

/-- The loop over descriptors that are already parsed. -/
def aggDescs : Nat → List Desc → AggState → AggState
  | _, [], st => st
  | i, d :: ds, st => aggDescs (i + 1) ds (aggInsert st i d)

/-- The index in `pops` of the marker that counts descriptor `d`: the entry of
`popMatch` under its key. -/
def markerIndex (st : AggState) (d : Desc) : Option Nat := st.popMatch.lookup d.key

/-- A colour written with a leading `#`, like `#RRGGBB`. -/
def HashColour (c : String) : Prop := c.data.head? = some '#'

instance (c : String) : Decidable (HashColour c) := by
  unfold HashColour
  infer_instance

/-- A hexadecimal digit, as in the colour syntax `#RRGGBB`. -/
def isHexDigit (c : Char) : Bool :=
  c.isDigit || (decide ('a' ≤ c) && decide (c ≤ 'f')) || (decide ('A' ≤ c) && decide (c ≤ 'F'))

/-- The state after an iteration that appends a marker for descriptor `d`. -/
def appendMarker (st : AggState) (i : Nat) (d : Desc) : AggState :=
  { changelist := st.changelist.set i d.chg
    popMatch := (d.key, st.pops.length) :: st.popMatch
    pops := st.pops ++ [⟨d.spos, -(i : Int), d.cnt, d.col⟩] }

/-- The 64-bit range of a Go `int`. -/
def InIntRange (x : Int) : Prop := -(2 ^ 63) ≤ x ∧ x < 2 ^ 63

instance (x : Int) : Decidable (InIntRange x) := by
  unfold InIntRange
  infer_instance

/-- The marker the design document prescribes for key `k`: position and colour
of the first descriptor with that key, its index negated as priority, the sum
of the counts (as a 64-bit `int`) as multiplicity. -/
def markerOf (ds : List Desc) (k : String) : Tick :=
  let i := (ds.map Desc.key).indexOf k
  let d := ds.getD i ⟨"", 0, 0, ""⟩
  ⟨d.spos, -(i : Int), wrapInt (countSum ds k), d.col⟩

/-! ## Stagger computation (lines 84-98 and 121-127) -/

/-- The inner loop of lines 87-92 for marker `pop`, over the markers after it:
every marker up to the first one farther away than `popSpace` adds
`0.5 + pop.Radius(s) * 3.0` to `h`. -/
def stackHeight (radius : Tick → ℚ) (popSpace : Int) (pop : Tick) : List Tick → ℚ → ℚ
  | [], h => h
  | q :: rest, h =>
    if q.Pos - pop.Pos > popSpace then h
    else stackHeight radius popSpace pop rest (h + (1 / 2 + radius pop * 3))

/-- The outer loop of lines 85-96, with the running maximum `m`. -/
def maxStaggeredLoop (s : Settings) (radius : Tick → ℚ) (popSpace : Int) :
    List Tick → ℚ → ℚ
  | [], m => m
  | pop :: rest, m =>
    let h := stackHeight radius popSpace pop rest (s.LollipopRadius + s.LollipopHeight)
    maxStaggeredLoop s radius popSpace rest (if h > m then h else m)

/-- The variable `maxStaggered` after the loop of lines 84-96. `radius` is
`Tick.Radius` for the settings `s`. -/
def maxStaggered (s : Settings) (radius : Tick → ℚ) (popSpace : Int) (pops : List Tick) : ℚ :=
  maxStaggeredLoop s radius popSpace pops (s.LollipopRadius + s.LollipopHeight)

/-- The inner loop of lines 122-127 of the drawing pass: every marker after
`pop` up to the first one farther away than `popSpace` lowers `mytop` by
`0.5 + pops[pj].Radius(s) * 3.0`. -/
def topAnchor (radius : Tick → ℚ) (popSpace : Int) (pop : Tick) : List Tick → ℚ → ℚ
  | [], mytop => mytop
  | q :: rest, mytop =>
    if q.Pos - pop.Pos > popSpace then mytop
    else topAnchor radius popSpace pop rest (mytop - (1 / 2 + radius q * 3))

/-- The stack height contribution of marker `pop` in the words of the design
document: its base stem height plus `0.5 + 3 * radius(m')` for every later
marker `m'` with `position(m') - position(pop) <= popSpace`. -/
def specContribution (s : Settings) (radius : Tick → ℚ) (popSpace : Int) (pop : Tick)
    (later : List Tick) : ℚ :=
  (s.LollipopRadius + s.LollipopHeight) +
    ((later.filter (fun q => decide (q.Pos - pop.Pos ≤ popSpace))).map
      (fun q => 1 / 2 + 3 * radius q)).sum

/-- The contributions of all markers of a list, each with the markers after it. -/
def specContributions (s : Settings) (radius : Tick → ℚ) (popSpace : Int) :
    List Tick → List ℚ
  | [] => []
  | pop :: rest =>
    specContribution s radius popSpace pop rest :: specContributions s radius popSpace rest

/-- The space the design document asks to reserve: the maximum stack height
contribution across all markers. -/
def specMaxStaggered (s : Settings) (radius : Tick → ℚ) (popSpace : Int)
    (pops : List Tick) : ℚ :=
  (specContributions s radius popSpace pops).foldl max (s.LollipopRadius + s.LollipopHeight)

/-- A radius function for the examples: the base radius for a single change,
one more pixel for every further change counted by the marker. Like the
`Tick.Radius` the design document describes, it does not decrease when the
count grows and is the configured base radius for count 1. -/
def sampleRadius (s : Settings) (t : Tick) : ℚ :=
  if t.Cnt ≤ 1 then s.LollipopRadius else s.LollipopRadius + (t.Cnt - 1)

/-- A marker list in position order. -/
def PosSorted (pops : List Tick) : Prop := pops.Pairwise (fun a b => a.Pos ≤ b.Pos)

/-! ## Axis tick selection (lines 104-107 and 256-271) -/

/-- Modelled from the spec: `TickSlice.Less` is declared outside `svg.go`; the
design document sorts the candidates by position ascending, priority
descending. -/
def Less (a b : Tick) : Bool :=
  if a.Pos = b.Pos then decide (a.Pri > b.Pri) else decide (a.Pos < b.Pos)

/-- The order `sort.Sort` establishes: no element is `Less` than one before it. -/
def TickSorted (ts : List Tick) : Prop := ts.Pairwise (fun a b => Less b a = false)

/-- The scan of the lookahead window of candidate `i`: `j` is the index of the
head of the remaining candidates, `best` the best index so far and `bestPri`
its priority. -/
def nextBetterScan (posI maxDist : Int) : List Tick → Nat → Nat → Int → Nat
  | [], _, best, _ => best
  | t :: rest, j, best, bestPri =>
    if t.Pos - posI < maxDist then
      if t.Pri > bestPri then nextBetterScan posI maxDist rest (j + 1) j t.Pri
      else nextBetterScan posI maxDist rest (j + 1) best bestPri
    else best

/-- Modelled from the spec: `TickSlice.NextBetter` is declared outside
`svg.go`. Following the design document it looks ahead from candidate `i` over
the window of candidates `j` with `position(j) - position(i) < maxDist` and
returns the index of the highest-priority candidate of the window, the lowest
index winning ties; the result is `i` exactly when `i` is best in its window. -/
def NextBetter (ts : List Tick) (i : Nat) (maxDist : Int) : Nat :=
  match ts.drop i with
  | [] => i
  | t :: rest => nextBetterScan t.Pos maxDist rest (i + 1) i t.Pri

/-- The loop of lines 258-271 from index `i` on: `rest` are the candidates not
yet visited, `lastDrawn` the loop variable; the result lists the index and the
tick of every candidate that is drawn. `nb` is `ts.NextBetter`. -/
def axisLoop (nb : Nat → Int → Nat) (aaSpace : Int) :
    Nat → List Tick → Int → List (Nat × Tick)
  | _, [], _ => []
  | i, t :: rest, lastDrawn =>
    if lastDrawn > 0 ∧ t.Pos - lastDrawn < aaSpace then
      axisLoop nb aaSpace (i + 1) rest lastDrawn
    else if i ≠ nb i aaSpace then
      axisLoop nb aaSpace (i + 1) rest lastDrawn
    else (i, t) :: axisLoop nb aaSpace (i + 1) rest t.Pos

/-- The ticks drawn on the axis for the sorted candidate list `ts`. -/
def axisDrawn (ts : List Tick) (aaSpace : Int) : List (Nat × Tick) :=
  axisLoop (NextBetter ts) aaSpace 0 ts 0

/-- Insert a tick into a list kept in `Less` order. -/
def insertTick (t : Tick) : List Tick → List Tick
  | [] => [t]
  | u :: rest => if Less u t then u :: insertTick t rest else t :: u :: rest

/-- The candidate list after `sort.Sort(ts)`, as an insertion sort by `Less`. -/
def sortTicks (ts : List Tick) : List Tick := ts.foldr insertTick []

/-- A motif of the Pfam response: type and coordinates, the latter as the
integers that `r.Start.Int64()` and `r.End.Int64()` yield. -/
structure Motif where
  Type_ : String
  Start : Int
  End : Int
  deriving DecidableEq, Repr

/-- A curated region of the Pfam response: the coordinates as the integers
`int(sstart)` and `int(swidth)` of lines 192-193, the short label `r.Text` and
the long description `r.Metadata.Description`. -/
structure Region where
  Start : Int
  End : Int
  Text : String
  Description : String
  deriving DecidableEq, Repr

/-- The ticks a motif appends (lines 156-182): none for `pfamb`, for a hidden
disordered motif or for a hatched disordered one. -/
def motifTicks (s : Settings) (r : Motif) : List Tick :=
  if r.Type_ = "pfamb" then []
  else if r.Type_ = "disorder" ∧ s.HideDisordered = true then []
  else if r.Type_ = "disorder" then []
  else [⟨r.Start, 1, 0, ""⟩, ⟨r.End, 1, 0, ""⟩]

/-- The slice `ticks` when the axis is drawn: start and end of the sequence
(lines 104-107), one tick per lollipop (line 118), two per motif (lines
180-181) and two per region (lines 192-193). -/
def axisCandidates (s : Settings) (aaLen : Int) (pops : List Tick) (motifs : List Motif)
    (regions : List Region) : List Tick :=
  [⟨0, 0, 0, ""⟩, ⟨aaLen, 99, 0, ""⟩] ++
    pops.map (fun pop => (⟨pop.Pos, 10, 0, ""⟩ : Tick)) ++
    (if s.HideMotifs = true then [] else motifs.flatMap (motifTicks s)) ++
    regions.flatMap (fun r => [(⟨r.Start, 5, 0, ""⟩ : Tick), ⟨r.End, 5, 0, ""⟩])

/-! ## Region label fitting (lines 200-246) -/

/-- `strings.FieldsFunc(str, f)` with the field being built in `cur`. -/
def fieldsFuncGo (f : Char → Bool) : List Char → List Char → List String
  | [], cur => if cur = [] then [] else [String.mk cur]
  | c :: cs, cur =>
    if f c then
      if cur = [] then fieldsFuncGo f cs [] else String.mk cur :: fieldsFuncGo f cs []
    else fieldsFuncGo f cs (cur ++ [c])

/-- `strings.FieldsFunc`. -/
def FieldsFunc (str : String) (f : Char → Bool) : List String :=
  fieldsFuncGo f str.data []

/-- `strings.TrimFunc`. -/
def TrimFunc (str : List Char) (f : Char → Bool) : List Char :=
  ((str.dropWhile f).reverse.dropWhile f).reverse

/-- The loop of lines 221-231, walking the tokens from the last one back:
`parts` holds `parts[i], parts[i-1], ..., parts[0]` and `post` the variable of
that name. The result is the text written, if any. -/
def wordLoop (measure : String → Int) (width : ℚ) : List String → String → Option String
  | [], _ => none
  | p :: earlier, post =>
    let pre := if earlier = [] then "" else ".."
    if (measure (pre ++ p ++ post) : ℚ) < width then some (pre ++ p ++ post)
    else wordLoop measure width earlier ".."

/-- The loop of lines 236-241 from `mx` down to 1, with the current `sub`; the
result is `sub` when the loop ends. The Go slice `r.Text[:mx]` counts bytes; the
embedding cuts the label after `mx` characters, which is the same for the ASCII
labels of Pfam. -/
def charLoop (measure : String → Int) (isPunct : Char → Bool) (width : ℚ) (text : String) :
    Nat → String → String
  | 0, sub => sub
  | mx + 1, _ =>
    let sub1 := String.mk (TrimFunc (text.data.take (mx + 1)) isPunct) ++ ".."
    if (measure sub1 : ℚ) < width then sub1
    else charLoop measure isPunct width text mx sub1

/-- The text element written into the box of a region of pixel width `swidth`
(lines 200-246), or `none` when no text element is written. `measure str` is
`MeasureFont(str, 12)` and `isPunct` is `unicode.IsPunct`. -/
def regionLabel (s : Settings) (measure : String → Int) (isPunct : Char → Bool)
    (swidth : ℚ) (r : Region) : Option String :=
  if swidth > 10 then
    if r.Description.utf8ByteSize > 1 ∧
        (measure r.Description : ℚ) < swidth - s.TextPadding then
      some r.Description
    else if (measure r.Text : ℚ) < swidth - s.TextPadding then
      some r.Text
    else
      let word : Option String :=
        if r.Text.data.any isPunct then
          wordLoop measure (swidth - s.TextPadding) (FieldsFunc r.Text isPunct).reverse ""
        else none
      match word with
      | some txt => some txt
      | none =>
        if swidth > 40 then
          some (charLoop measure isPunct (swidth - s.TextPadding) r.Text
            (r.Text.length - 2) r.Text)
        else none
  else none

/-- The tick `sort.Sort` places at the end of the axis: the sequence length
with priority 99. -/
def endTick (aaLen : Int) : Tick := ⟨aaLen, 99, 0, ""⟩

/-- A text width function for the examples: seven pixels per character. -/
def sampleMeasure (str : String) : Int := 7 * str.length

/-- A punctuation test for the examples: the ASCII punctuation that occurs in
domain names. -/
def samplePunct (c : Char) : Bool := c == '_' || c == '-' || c == '.' || c == ','

/-! ## Concrete collaborators used to evaluate the loop on examples -/

/-- The letters a residue symbol is written with. -/
def isLetter (c : Char) : Bool := c.isAlpha

/-- Characters of the mutant part of a change string. -/
def isMutChar (c : Char) : Bool := c.isAlpha || c == '='

/-- Scan for the first run of digits, remembering the run of letters that
precedes it. -/
def stripChangePosGo : List Char → List Char → Option ChangePos
  | _, [] => none
  | wild, c :: cs =>
    if c.isDigit then
      some
        { wild := String.mk wild
          pos := String.mk ((c :: cs).takeWhile Char.isDigit)
          mutant := String.mk (((c :: cs).dropWhile Char.isDigit).takeWhile isMutChar) }
    else if isLetter c then stripChangePosGo (wild ++ [c]) cs
    else stripChangePosGo [] cs

/-- Modelled from the spec: the pattern `stripChangePos` of the
mutation-descriptor parser is declared outside `svg.go`; the design document
gives the syntax of a change string as `<wild><pos><mut>`. The first run of
digits is the position, the letters right before it the wild-type residue, the
letters (or `=`) right after it the mutant residue; a string without a digit
does not match. -/
def stripChangePos (chg : String) : Option ChangePos :=
  stripChangePosGo [] chg.data

/-- A case table that leaves the characters outside ASCII unchanged. -/
def asciiOnly (c : Char) : Char := c

/-- A settings value with the usual colours and sizes, for the examples. -/
def sampleSettings : Settings :=
  { GraphicWidth := 740
    Padding := 15
    ShowLabels := false
    HideAxis := false
    HideMotifs := false
    HideDisordered := false
    SolidFillOnly := false
    DomainHeight := 18
    BackboneHeight := 14
    MotifHeight := 18
    AxisPadding := 10
    AxisHeight := 15
    LollipopRadius := 4
    LollipopHeight := 28
    TextPadding := 5
    SynonymousColor := "#0000ff"
    MutationColor := "#ff0000" }

/-- Settings whose two colours are written as colour names. -/
def darkRedSettings : Settings :=
  { sampleSettings with SynonymousColor := "darkred", MutationColor := "red" }

/-! ## Definitions for the label fallback (lines 218-231) -/

/-- The candidate the loop of lines 221-231 builds for token `i` of `parts`:
the prefix `..` unless `i` is the first token, the token, and the suffix `..`
unless `i` is the last token. -/
def wordCandidate (parts : List String) (i : Nat) : String :=
  (if i = 0 then "" else "..") ++ parts.getD i "" ++
    (if i + 1 = parts.length then "" else "..")

/-- The candidate the loop of lines 221-231 tries at its step `k`, in terms of
the list `l` it walks (`l` holds the tokens from the last one back) and of the
initial value `post` of the suffix. -/
def loopCandidate (l : List String) (post : String) (k : Nat) : String :=
  (if k + 1 = l.length then "" else "..") ++ l.getD k "" ++ (if k = 0 then post else "..")

/-- The candidate of the design document for token `i` of `parts`: the suffix
holds one `..` for each token skipped so far, that is `n - 1 - i` of them. -/
def specWordCandidate (parts : List String) (i : Nat) : String :=
  (if i = 0 then "" else "..") ++ parts.getD i "" ++
    String.join (List.replicate (parts.length - 1 - i) "..")

/-! ## The settings after the call (lines 37-39) -/

/-- The value of the receiver `*s` when `DrawSVG` returns: line 38 stores the
automatic width in `s.GraphicWidth` when that field is 0; no other line assigns
to a field of `s`. `autoWidth s` is the result of `s.AutoWidth(g)`. -/
def settingsAfterDrawSVG (autoWidth : Settings → ℚ) (s : Settings) : Settings :=
  if s.GraphicWidth = 0 then { s with GraphicWidth := autoWidth s } else s

/-! ## Canvas height and lollipop placement (lines 44-102 and 111-127) -/

/-- The variable `startY` after lines 44-47. -/
def startYInit (s : Settings) : ℚ :=
  s.Padding + (if s.ShowLabels = true then s.Padding else 0)

/-- The values `mytop` of the drawing loop of lines 117-127, one per marker. -/
def lollipopTops (radius : Tick → ℚ) (popSpace : Int) (poptop : ℚ) : List Tick → List ℚ
  | [] => []
  | pop :: rest =>
    topAnchor radius popSpace pop rest poptop :: lollipopTops radius popSpace poptop rest

/-- What lines 44-127 compute: the sorted markers, the canvas height `ht`
written into the header, `startY` after line 98 and the top anchors of the
lollipops. -/
structure Canvas where
  pops : List Tick
  ht : ℚ
  startY : ℚ
  tops : List ℚ
  deriving DecidableEq

/-- The height of the axis band added in lines 100-102. -/
def axisBand (s : Settings) : ℚ :=
  if s.HideAxis = true then 0 else s.AxisPadding + s.AxisHeight

/-- Lines 44-127 for the change list `changelist`; `popSpace` is the value of
line 42 and `radius` is `Tick.Radius` for the settings `s`. The result is
`none` when the aggregation loop fails on an unmatched descriptor. -/
def staggerLayout (re : String → Option ChangePos) (tbl : Char → Char) (s : Settings)
    (radius : Tick → ℚ) (popSpace : Int) (changelist : List String) : Option Canvas :=
  if changelist.length > 0 then
    match aggregate re tbl s changelist with
    | none => none
    | some st =>
      let pops := sortTicks st.pops
      let maxS := maxStaggered s radius popSpace pops
      let startY := startYInit s + (maxS - (s.LollipopRadius + s.LollipopHeight))
      some
        { pops := pops
          ht := s.DomainHeight + s.Padding * 2 + maxS + axisBand s
          startY := startY
          tops :=
            if pops.length > 0 then
              lollipopTops radius popSpace (startY + s.LollipopRadius) pops
            else [] }
  else
    some
      { pops := []
        ht := s.DomainHeight + s.Padding * 2 + axisBand s
        startY := startYInit s
        tops := [] }

/-! ## The aggregation key as a pair (design document, section 3) -/

/-- The aggregation key of a descriptor as the design document states it: the
pair of stripped change label and lower-cased colour. -/
def Desc.pair (d : Desc) : String × String := (d.chg, d.col)

/-- Sum of the counts of the descriptors whose (label, colour) pair is `k`. -/
def pairCountSum (ds : List Desc) (k : String × String) : Int :=
  ((ds.filter (fun d => decide (d.pair = k))).map Desc.cnt).sum

/-- The marker the design document prescribes for the pair `k`: position and
colour of the first descriptor with that pair, its index negated as priority,
the sum of the counts (as a 64-bit `int`) as multiplicity. -/
def pairMarker (ds : List Desc) (k : String × String) : Tick :=
  let i := (ds.map Desc.pair).indexOf k
  let d := ds.getD i ⟨"", 0, 0, ""⟩
  ⟨d.spos, -(i : Int), wrapInt (pairCountSum ds k), d.col⟩

/-! ## The stagger loop in IEEE-754 double arithmetic -/

/-- A finite `float64` value, written `mant * 2 ^ exp`. The exponent is not
bounded: overflow to infinity and the subnormal range are outside this model;
for results of magnitude between `2^-1022` and `2^1024` the operations below
are those of IEEE-754 binary64 with rounding to nearest, ties to even. -/
structure F64 where
  mant : Int
  exp : Int
  deriving DecidableEq, Repr

/-- Number of binary digits of `n`, by halving at most `fuel` times. -/
def F64.bitLengthAux : Nat → Nat → Nat
  | 0, _ => 0
  | fuel + 1, n => if n = 0 then 0 else F64.bitLengthAux fuel (n / 2) + 1

/-- Number of binary digits of `n`. -/
def F64.bitLength (n : Nat) : Nat := F64.bitLengthAux n n

/-- The smaller of two exponents. -/
def F64.minExp (x y : Int) : Int := if x ≤ y then x else y

/-- Round the exact value `m * 2 ^ e` to 53 significant bits, to nearest and
ties to even: a significand below `2^53` is kept; otherwise the `k` surplus low
bits are cut off and the kept part is incremented when the cut part is more
than half a unit, or exactly half a unit with the kept part odd. -/
def F64.round53 (m : Int) (e : Int) : F64 :=
  let a := m.natAbs
  if a < 2 ^ 53 then ⟨m, e⟩
  else
    let k := F64.bitLength a - 53
    let q := a / 2 ^ k
    let r := a % 2 ^ k
    let q1 := if r > 2 ^ (k - 1) ∨ (r = 2 ^ (k - 1) ∧ q % 2 = 1) then q + 1 else q
    ⟨if m < 0 then -(q1 : Int) else (q1 : Int), e + (k : Int)⟩

/-- The significand of `x` when written with the exponent `e <= x.exp`. -/
def F64.scaled (x : F64) (e : Int) : Int := x.mant * 2 ^ (x.exp - e).toNat

/-- The `float64` sum: the exact sum, rounded. -/
def F64.add (x y : F64) : F64 :=
  F64.round53 (F64.scaled x (F64.minExp x.exp y.exp) + F64.scaled y (F64.minExp x.exp y.exp))
    (F64.minExp x.exp y.exp)

/-- The `float64` product: the exact product, rounded. -/
def F64.mul (x y : F64) : F64 := F64.round53 (x.mant * y.mant) (x.exp + y.exp)

/-- The comparison `x < y` of two `float64` values. -/
def F64.lt (x y : F64) : Bool :=
  decide (F64.scaled x (F64.minExp x.exp y.exp) < F64.scaled y (F64.minExp x.exp y.exp))

/-- The rational number a `float64` value stands for. -/
def F64.toRat (x : F64) : ℚ := (x.mant : ℚ) * (2 : ℚ) ^ x.exp

/-- The inner loop of lines 87-92 in `float64`: `h += 0.5 + (pop.Radius(s) * 3.0)`
rounds the product, the inner sum and the sum with `h`. (A compiler that fuses
the product and the inner sum rounds once instead of twice; whenever the
product `radius * 3` is exact, as at the inputs evaluated below, both give the
same value.) -/
def stackHeightF (radius : Tick → F64) (popSpace : Int) (pop : Tick) : List Tick → F64 → F64
  | [], h => h
  | q :: rest, h =>
    if q.Pos - pop.Pos > popSpace then h
    else stackHeightF radius popSpace pop rest
      (F64.add h (F64.add ⟨1, -1⟩ (F64.mul (radius pop) ⟨3, 0⟩)))

/-- The outer loop of lines 85-96 in `float64`; `base` is the value of
`s.LollipopRadius + s.LollipopHeight` and `m` the running maximum. -/
def maxStaggeredLoopF (base : F64) (radius : Tick → F64) (popSpace : Int) :
    List Tick → F64 → F64
  | [], m => m
  | pop :: rest, m =>
    let h := stackHeightF radius popSpace pop rest base
    maxStaggeredLoopF base radius popSpace rest (if F64.lt m h then h else m)

/-- The variable `maxStaggered` after the loop of lines 84-96, computed in
`float64` from the settings fields `LollipopRadius` and `LollipopHeight`. -/
def maxStaggeredF (lollipopRadius lollipopHeight : F64) (radius : Tick → F64)
    (popSpace : Int) (pops : List Tick) : F64 :=
  maxStaggeredLoopF (F64.add lollipopRadius lollipopHeight) radius popSpace pops
    (F64.add lollipopRadius lollipopHeight)

/-! # Properties -/

/-! ### 64-bit arithmetic and first occurrences -/

theorem wrapInt_inRange (x : Int) : InIntRange (wrapInt x) := by
  unfold InIntRange wrapInt
  have h1 := Int.emod_nonneg (x + 2 ^ 63) (show (2 ^ 64 : Int) ≠ 0 by norm_num)
  have h2 := Int.emod_lt_of_pos (x + 2 ^ 63) (show (0 : Int) < 2 ^ 64 by norm_num)
  constructor <;> omega

theorem wrapInt_of_inRange {x : Int} (h : InIntRange x) : wrapInt x = x := by
  unfold InIntRange at h
  unfold wrapInt
  have h1 : (x + 2 ^ 63) % 2 ^ 64 = x + 2 ^ 63 := Int.emod_eq_of_lt (by omega) (by omega)
  omega
theorem wrapInt_add_wrapInt (a b : Int) : wrapInt (wrapInt a + b) = wrapInt (a + b) := by
  unfold wrapInt
  have : ((a + 2 ^ 63) % 2 ^ 64 - 2 ^ 63 + b + 2 ^ 63) % 2 ^ 64 = (a + b + 2 ^ 63) % 2 ^ 64 := by
    have e1 : (a + 2 ^ 63) % 2 ^ 64 - 2 ^ 63 + b + 2 ^ 63 = (a + 2 ^ 63) % 2 ^ 64 + b := by ring
    have e2 : a + b + 2 ^ 63 = (a + 2 ^ 63) + b := by ring
    rw [e1, e2, Int.emod_add_cancel_right]
    exact Int.emod_emod_of_dvd _ (dvd_refl _)
  rw [this]
theorem mem_firstOccurrences {κ : Type} [DecidableEq κ] (x : κ) (l : List κ) :
    x ∈ firstOccurrences l ↔ x ∈ l := by
  induction l with
  | nil => simp [firstOccurrences]
  | cons k ks ih =>
    simp only [firstOccurrences, List.mem_cons, List.mem_filter, ih, decide_eq_true_eq]
    by_cases h : x = k <;> simp [h]

theorem nodup_firstOccurrences {κ : Type} [DecidableEq κ] (l : List κ) :
    (firstOccurrences l).Nodup := by
  induction l with
  | nil => simp [firstOccurrences]
  | cons k ks ih =>
    simp only [firstOccurrences, List.nodup_cons, List.mem_filter, decide_eq_true_eq]
    exact ⟨fun h => h.2 rfl, ih.filter _⟩

theorem firstOccurrences_snoc {κ : Type} [DecidableEq κ] (l : List κ) (k : κ) :
    firstOccurrences (l ++ [k]) =
      if k ∈ l then firstOccurrences l else firstOccurrences l ++ [k] := by
  induction l with
  | nil => simp [firstOccurrences]
  | cons a ks ih =>
    rw [List.cons_append]
    simp only [firstOccurrences]
    rw [ih]
    by_cases hk : k ∈ ks
    · simp [hk]
    · by_cases hka : k = a
      · subst hka
        simp [hk, List.filter_append]
      · simp [hk, hka, List.filter_append]

/-! ### The loop over parsed descriptors -/

theorem map_ite_eq_modify {α β : Type} [DecidableEq α] (f : α → β) (F : β → β) (k : α) :
    ∀ l : List α, l.Nodup → k ∈ l →
      l.map (fun x => if x = k then F (f x) else f x) = (l.map f).modify F (l.indexOf k) := by
  intro l
  induction l with
  | nil => intro _ h; simp at h
  | cons a l ih =>
    intro hnd hk
    rw [List.nodup_cons] at hnd
    by_cases hak : a = k
    · subst hak
      have hmap : l.map (fun x => if x = a then F (f x) else f x) = l.map f := by
        apply List.map_congr_left
        intro x hx
        have : x ≠ a := fun e => hnd.1 (e ▸ hx)
        simp [this]
      simp [List.indexOf_cons_self, hmap]
    · have hk2 : k ∈ l := by
        rcases List.mem_cons.1 hk with h | h
        · exact absurd h.symm hak
        · exact h
      rw [List.indexOf_cons_ne _ hak]
      simp [hak, ih hnd.2 hk2]

theorem aggDescs_snoc (ds : List Desc) (d : Desc) :
    ∀ (i : Nat) (st : AggState),
      aggDescs i (ds ++ [d]) st = aggInsert (aggDescs i ds st) (i + ds.length) d := by
  induction ds with
  | nil => intro i st; simp [aggDescs]
  | cons a ds ih =>
    intro i st
    have e : i + 1 + ds.length = i + (ds.length + 1) := by omega
    show aggDescs (i + 1) (ds ++ [d]) (aggInsert st i a) =
      aggInsert (aggDescs (i + 1) ds (aggInsert st i a)) (i + (ds.length + 1)) d
    rw [ih, e]

theorem countSum_snoc (ds : List Desc) (d : Desc) (k : String) :
    countSum (ds ++ [d]) k = countSum ds k + (if d.key = k then d.cnt else 0) := by
  unfold countSum
  by_cases h : d.key = k <;> simp [List.filter_append, List.filter_cons, h]

theorem countSum_of_not_mem (ds : List Desc) (k : String) (h : k ∉ ds.map Desc.key) :
    countSum ds k = 0 := by
  unfold countSum
  have : ds.filter (fun d => decide (d.key = k)) = [] := by
    rw [List.filter_eq_nil_iff]
    intro d hd hk
    exact h (List.mem_map.2 ⟨d, hd, by simpa using hk⟩)
  simp [this]

theorem markerOf_snoc_of_mem (ds : List Desc) (d : Desc) (x : String)
    (hx : x ∈ ds.map Desc.key) :
    markerOf (ds ++ [d]) x =
      if x = d.key then addCnt d.cnt (markerOf ds x) else markerOf ds x := by
  have hidx : ((ds ++ [d]).map Desc.key).indexOf x = (ds.map Desc.key).indexOf x := by
    rw [List.map_append, List.indexOf_append_of_mem hx]
  have hlt : (ds.map Desc.key).indexOf x < ds.length := by
    simpa using (List.indexOf_lt_length.2 hx)
  have hget : (ds ++ [d]).getD ((ds.map Desc.key).indexOf x) ⟨"", 0, 0, ""⟩ =
      ds.getD ((ds.map Desc.key).indexOf x) ⟨"", 0, 0, ""⟩ := by
    simp [List.getElem?_append_left hlt]
  unfold markerOf
  simp only [hidx, hget, countSum_snoc]
  by_cases hk : x = d.key
  · subst hk
    simp [addCnt, wrapInt_add_wrapInt]
  · have hk2 : ¬ d.key = x := fun e => hk e.symm
    simp [hk, hk2]

theorem markerOf_snoc_new (ds : List Desc) (d : Desc) (hnew : d.key ∉ ds.map Desc.key)
    (hr : InIntRange d.cnt) :
    markerOf (ds ++ [d]) d.key = ⟨d.spos, -(ds.length : Int), d.cnt, d.col⟩ := by
  have hidx : ((ds ++ [d]).map Desc.key).indexOf d.key = ds.length := by
    rw [List.map_append, List.indexOf_append_of_not_mem hnew]
    simp
  unfold markerOf
  simp only [hidx, countSum_snoc, countSum_of_not_mem ds d.key hnew]
  simp [wrapInt_of_inRange hr]

theorem aggDescs_spec (cl : List String) (ds : List Desc) (hr : ∀ d ∈ ds, InIntRange d.cnt) :
    (aggDescs 0 ds ⟨cl, [], []⟩).pops =
        (firstOccurrences (ds.map Desc.key)).map (markerOf ds) ∧
      ∀ k, (aggDescs 0 ds ⟨cl, [], []⟩).popMatch.lookup k =
        if k ∈ ds.map Desc.key then
          some ((firstOccurrences (ds.map Desc.key)).indexOf k)
        else none := by
  induction ds using List.reverseRecOn with
  | nil => simp [aggDescs, firstOccurrences]
  | append_singleton ds d ih =>
    have hr1 : ∀ x ∈ ds, InIntRange x.cnt := fun x hx => hr x (List.mem_append_left _ hx)
    have hrd : InIntRange d.cnt := hr d (by simp)
    obtain ⟨ihp, ihm⟩ := ih hr1
    rw [aggDescs_snoc]
    simp only [List.map_append, List.map_cons, List.map_nil, firstOccurrences_snoc]
    by_cases hk : d.key ∈ ds.map Desc.key
    · -- the key is known: the count of its marker grows
      have hl := ihm d.key
      rw [if_pos hk] at hl
      have hmem : d.key ∈ firstOccurrences (ds.map Desc.key) :=
        (mem_firstOccurrences _ _).2 hk
      simp only [aggInsert, hl, if_pos hk]
      constructor
      · rw [ihp, ← map_ite_eq_modify (markerOf ds) (addCnt d.cnt) d.key _
          (nodup_firstOccurrences _) hmem]
        apply List.map_congr_left
        intro x hx
        exact (markerOf_snoc_of_mem ds d x ((mem_firstOccurrences _ _).1 hx)).symm
      · intro k
        rw [ihm k]
        by_cases hkk : k ∈ ds.map Desc.key
        · simp [hkk]
        · have : k ≠ d.key := fun e => hkk (e ▸ hk)
          simp [hkk, this]
    · -- a new key: a marker is appended
      have hl := ihm d.key
      rw [if_neg hk] at hl
      have hnmem : d.key ∉ firstOccurrences (ds.map Desc.key) :=
        fun h => hk ((mem_firstOccurrences _ _).1 h)
      simp only [aggInsert, hl, if_neg hk]
      constructor
      · rw [ihp, List.map_append, List.map_cons, List.map_nil,
          markerOf_snoc_new ds d hk hrd]
        congr 1
        · apply List.map_congr_left
          intro x hx
          have hx1 := (mem_firstOccurrences _ _).1 hx
          rw [markerOf_snoc_of_mem ds d x hx1]
          have : x ≠ d.key := fun e => hk (e ▸ hx1)
          simp [this]
        · simp
      · intro k
        rw [List.lookup_cons]
        by_cases hkd : k = d.key
        · subst hkd
          simp [ihp, List.indexOf_append_of_not_mem hnmem]
        · have hb : (k == d.key) = false := by simpa using hkd
          rw [hb]
          simp only [ihm k]
          by_cases hkk : k ∈ ds.map Desc.key
          · have := (mem_firstOccurrences _ _).2 hkk
            simp [hkk, List.indexOf_append_of_mem this]
          · simp [hkk, hkd]

/-! ### Scanning integers -/

theorem scanToken_inRange {neg : Bool} {r : List Char} {v : Int}
    (h : scanToken neg r = some v) : InIntRange v := by
  unfold scanToken at h
  dsimp only at h
  split_ifs at h with h1 h2 h3 h4 h5
  · rw [← Option.some.inj h]; exact h4
  · rw [← Option.some.inj h]; exact h5

theorem scanInt_inRange {str : String} {v : Int} (h : scanInt str = some v) : InIntRange v := by
  unfold scanInt at h
  split at h
  · exact absurd h (by simp)
  · exact scanToken_inRange h
  · exact scanToken_inRange h
  · exact scanToken_inRange h

theorem digitChar_isDigit (k : Nat) (hk : k < 10) :
    (Nat.digitChar k).isDigit = true ∧ (Nat.digitChar k).toNat - 48 = k := by
  interval_cases k <;> decide

theorem isDigit_facts (c : Char) (h : c.isDigit = true) :
    c ≠ '\n' ∧ isSpace c = false ∧ c ≠ '+' ∧ c ≠ '-' ∧ c ≠ '_' ∧ isDecimalOrUnderscore c = true := by
  have h1 : 48 ≤ c.val.toNat ∧ c.val.toNat ≤ 57 := by
    simp only [Char.isDigit, Bool.and_eq_true, decide_eq_true_eq] at h
    exact ⟨h.1, h.2⟩
  have hn : c.toNat = c.val.toNat := rfl
  refine ⟨?_, ?_, ?_, ?_, ?_, ?_⟩
  · rintro rfl; revert h; decide
  · simp only [isSpace, hn]
    simp
    omega
  · rintro rfl; revert h; decide
  · rintro rfl; revert h; decide
  · rintro rfl; revert h; decide
  · simp [isDecimalOrUnderscore, h]

theorem toDigitsCore_spec : ∀ (fuel n : Nat) (ds : List Char), n < fuel →
    ∃ pre : List Char, Nat.toDigitsCore 10 fuel n ds = pre ++ ds ∧ pre ≠ [] ∧
      (∀ c ∈ pre, c.isDigit = true) ∧
      ∀ a : Nat, pre.foldl (fun acc c => 10 * acc + (c.toNat - 48)) a = a * 10 ^ pre.length + n := by
  intro fuel
  induction fuel with
  | zero => intro n ds h; omega
  | succ fuel ih =>
    intro n ds hn
    have hd := digitChar_isDigit (n % 10) (Nat.mod_lt _ (by norm_num))
    by_cases h0 : n / 10 = 0
    · refine ⟨[Nat.digitChar (n % 10)], ?_, by simp, ?_, ?_⟩
      · simp [Nat.toDigitsCore, h0]
      · intro c hc
        rw [List.mem_singleton] at hc
        rw [hc]; exact hd.1
      · intro a
        have hlt : n < 10 := by omega
        simp only [List.foldl_cons, List.foldl_nil, List.length_singleton, pow_one, hd.2]
        omega
    · have hlt : n / 10 < fuel := by omega
      obtain ⟨pre, hpre, -, hdig, hval⟩ := ih (n / 10) (Nat.digitChar (n % 10) :: ds) hlt
      refine ⟨pre ++ [Nat.digitChar (n % 10)], ?_, by simp, ?_, ?_⟩
      · simp [Nat.toDigitsCore, h0, hpre]
      · intro c hc
        rcases List.mem_append.1 hc with h | h
        · exact hdig c h
        · rw [List.mem_singleton] at h
          rw [h]; exact hd.1
      · intro a
        simp only [List.foldl_append, List.foldl_cons, List.foldl_nil, hval a, hd.2,
          List.length_append, List.length_singleton, pow_succ]
        have := Nat.div_add_mod n 10
        nlinarith [this]

theorem repr_spec (n : Nat) :
    (Nat.repr n).data ≠ [] ∧ (∀ c ∈ (Nat.repr n).data, c.isDigit = true) ∧
      decimalValue (Nat.repr n).data = n := by
  obtain ⟨pre, hpre, hne, hdig, hval⟩ := toDigitsCore_spec (n + 1) n [] (by omega)
  have hdata : (Nat.repr n).data = pre := by
    simp [Nat.repr, Nat.toDigits, hpre, List.asString]
  rw [hdata]
  refine ⟨hne, hdig, ?_⟩
  have := hval 0
  simpa [decimalValue] using this

theorem takeWhile_digits_append (pre rest : List Char)
    (hdig : ∀ c ∈ pre, c.isDigit = true)
    (hrest : ∀ c, rest.head? = some c → isDecimalOrUnderscore c = false) :
    (pre ++ rest).takeWhile isDecimalOrUnderscore = pre := by
  induction pre with
  | nil =>
    cases rest with
    | nil => rfl
    | cons c cs =>
      have := hrest c rfl
      simp [List.takeWhile, this]
  | cons c cs ih =>
    have hc := (isDigit_facts c (hdig c (by simp))).2.2.2.2.2
    rw [List.cons_append, List.takeWhile_cons, hc]
    simp only [if_true]
    rw [ih (fun x hx => hdig x (List.mem_cons_of_mem _ hx))]

/-- Scanning the decimal numeral of `n`, possibly followed by other text. -/
theorem scanInt_repr_append (n : Nat) (hn : n < 2 ^ 63) (rest : List Char)
    (hrest : ∀ c, rest.head? = some c → isDecimalOrUnderscore c = false) :
    scanInt (String.mk ((Nat.repr n).data ++ rest)) = some (n : Int) := by
  obtain ⟨hne, hdig, hval⟩ := repr_spec n
  obtain ⟨c, cs, hcs⟩ := List.exists_cons_of_ne_nil hne
  have hc := isDigit_facts c (hdig c (by simp [hcs]))
  have htw := takeWhile_digits_append _ rest hdig hrest
  have hskip : skipSpace ((Nat.repr n).data ++ rest) = some ((Nat.repr n).data ++ rest) := by
    rw [hcs]
    simp [skipSpace, hc.1, hc.2.1]
  have hany : (Nat.repr n).data.any (fun c => c == '_') = false := by
    rw [List.any_eq_false]
    intro x hx
    have := (isDigit_facts x (hdig x hx)).2.2.2.2.1
    simpa using this
  have h1 : -(2 ^ 63 : Int) ≤ (n : Int) ∧ (n : Int) < 2 ^ 63 := by
    constructor
    · have : (0 : Int) ≤ (n : Int) := Int.ofNat_nonneg n
      omega
    · exact_mod_cast hn
  have htok : scanToken false ((Nat.repr n).data ++ rest) = some (n : Int) := by
    unfold scanToken
    simp only [htw, if_neg hne, hany, hval, Bool.false_eq_true, if_false]
    exact if_pos h1
  unfold scanInt
  simp only [hskip]
  rw [hcs, List.cons_append] at htok ⊢
  split
  · rename_i heq; simp at heq
  · rename_i heq
    exact absurd (List.cons.inj (Option.some.inj heq)).1 hc.2.2.1
  · rename_i heq
    exact absurd (List.cons.inj (Option.some.inj heq)).1 hc.2.2.2.1
  · rename_i heq
    rw [← Option.some.inj heq]
    exact htok

/-! ### Cutting at a separator -/

theorem splitFirst_eq_none {sep : Char} {l : List Char} :
    splitFirst sep l = none ↔ sep ∉ l := by
  induction l with
  | nil => simp [splitFirst]
  | cons c cs ih =>
    by_cases h : c = sep
    · simp [splitFirst, h]
    · have h2 : ¬ sep = c := fun e => h e.symm
      simp [splitFirst, h, h2, ih]

theorem splitFirst_eq_some {sep : Char} {l p0 p1 : List Char}
    (h : splitFirst sep l = some (p0, p1)) : l = p0 ++ sep :: p1 ∧ sep ∉ p0 := by
  induction l generalizing p0 with
  | nil => simp [splitFirst] at h
  | cons c cs ih =>
    by_cases hc : c = sep
    · simp only [splitFirst, hc, if_true, Option.some.injEq, Prod.mk.injEq] at h
      obtain ⟨rfl, rfl⟩ := h
      simp [hc]
    · simp only [splitFirst, hc, if_false, Option.map_eq_some', Prod.mk.injEq] at h
      obtain ⟨⟨q0, q1⟩, hq, rfl, rfl⟩ := h
      obtain ⟨h1, h2⟩ := ih hq
      have hc2 : ¬ sep = c := fun e => hc e.symm
      refine ⟨by rw [h1]; rfl, ?_⟩
      simp [hc2, h2]

theorem splitFirst_append {sep : Char} (p0 p1 : List Char) (h : sep ∉ p0) :
    splitFirst sep (p0 ++ sep :: p1) = some (p0, p1) := by
  induction p0 with
  | nil => simp [splitFirst]
  | cons c cs ih =>
    have hc : ¬ c = sep := fun e => h (by simp [e])
    have hcs : sep ∉ cs := fun e => h (List.mem_cons_of_mem _ e)
    simp [splitFirst, hc, ih hcs]

/-! ### One descriptor -/

theorem toLowerRune_hash (tbl : Char → Char) : toLowerRune tbl '#' = '#' := rfl

theorem ToLower_hashColour (tbl : Char → Char) {c : String} (h : HashColour c) :
    HashColour (ToLower tbl c) := by
  unfold HashColour at h ⊢
  unfold ToLower
  cases hd : c.data with
  | nil => rw [hd] at h; simp at h
  | cons x xs =>
    rw [hd] at h
    simp only [List.head?_cons, Option.some.injEq] at h
    subst h
    simp [toLowerRune_hash]

theorem parseChange_of_match {re : String → Option ChangePos} (tbl : Char → Char)
    (s : Settings) {chg : String} {cpos : ChangePos} (hre : re chg = some cpos) :
    parseChange re tbl s chg =
      some
        { chg := String.mk (splitColour (defaultColour s cpos) (splitCount chg.data).2).2
          spos := (scanInt cpos.pos).getD 0
          cnt := (splitCount chg.data).1
          col := ToLower tbl (splitColour (defaultColour s cpos) (splitCount chg.data).2).1 } := by
  simp only [parseChange, hre]

theorem parseChange_eq_none {re : String → Option ChangePos} {tbl : Char → Char}
    {s : Settings} {chg : String} : parseChange re tbl s chg = none ↔ re chg = none := by
  unfold parseChange
  cases h : re chg <;> simp

theorem splitCount_inRange (chg : List Char) : InIntRange (splitCount chg).1 := by
  unfold splitCount
  split
  · rename_i parts hs
    cases hv : scanInt (String.mk parts.2) with
    | none => simp [InIntRange]
    | some v => simpa using scanInt_inRange hv
  · simp [InIntRange]

theorem splitColour_no_hash (col0 : String) (chg : List Char) :
    '#' ∉ (splitColour col0 chg).2 := by
  unfold splitColour
  split
  · rename_i parts hs
    exact (@splitFirst_eq_some _ _ parts.1 parts.2 hs).2
  · rename_i hs
    exact splitFirst_eq_none.1 hs

theorem splitColour_hashColour {col0 : String} (h : HashColour col0) (chg : List Char) :
    HashColour (splitColour col0 chg).1 := by
  unfold splitColour
  split
  · simp [HashColour]
  · exact h

theorem defaultColour_hashColour {s : Settings} (hsyn : HashColour s.SynonymousColor)
    (hmut : HashColour s.MutationColor) (cpos : ChangePos) :
    HashColour (defaultColour s cpos) := by
  unfold defaultColour
  split_ifs
  · exact hmut
  · exact hsyn

theorem parseChange_cnt_inRange {re : String → Option ChangePos} {tbl : Char → Char}
    {s : Settings} {chg : String} {d : Desc} (h : parseChange re tbl s chg = some d) :
    InIntRange d.cnt := by
  cases hre : re chg with
  | none => rw [parseChange_eq_none.2 hre] at h; simp at h
  | some cpos =>
    rw [parseChange_of_match tbl s hre] at h
    rw [← Option.some.inj h]
    exact splitCount_inRange _

theorem parseChange_chg_no_hash {re : String → Option ChangePos} {tbl : Char → Char}
    {s : Settings} {chg : String} {d : Desc} (h : parseChange re tbl s chg = some d) :
    '#' ∉ d.chg.data := by
  cases hre : re chg with
  | none => rw [parseChange_eq_none.2 hre] at h; simp at h
  | some cpos =>
    rw [parseChange_of_match tbl s hre] at h
    rw [← Option.some.inj h]
    exact splitColour_no_hash _ _

theorem parseChange_col_hash {re : String → Option ChangePos} {tbl : Char → Char}
    {s : Settings} {chg : String} {d : Desc} (hsyn : HashColour s.SynonymousColor)
    (hmut : HashColour s.MutationColor) (h : parseChange re tbl s chg = some d) :
    HashColour d.col := by
  cases hre : re chg with
  | none => rw [parseChange_eq_none.2 hre] at h; simp at h
  | some cpos =>
    rw [parseChange_of_match tbl s hre] at h
    rw [← Option.some.inj h]
    exact ToLower_hashColour tbl
      (splitColour_hashColour (defaultColour_hashColour hsyn hmut cpos) _)

theorem append_hash_inj : ∀ (a a' c c' : List Char), '#' ∉ a → '#' ∉ a' →
    c.head? = some '#' → c'.head? = some '#' → a ++ c = a' ++ c' → a = a' ∧ c = c' := by
  intro a
  induction a with
  | nil =>
    intro a' c c' _ ha' hc hc' h
    cases a' with
    | nil => exact ⟨rfl, by simpa using h⟩
    | cons x xs =>
      exfalso
      rw [List.nil_append] at h
      rw [h] at hc
      simp only [List.cons_append, List.head?_cons, Option.some.injEq] at hc
      exact ha' (by simp [hc])
  | cons y ys ih =>
    intro a' c c' ha ha' hc hc' h
    cases a' with
    | nil =>
      exfalso
      rw [List.nil_append] at h
      rw [← h] at hc'
      simp only [List.cons_append, List.head?_cons, Option.some.injEq] at hc'
      exact ha (by simp [hc'])
    | cons x xs =>
      simp only [List.cons_append, List.cons.injEq] at h
      obtain ⟨hxy, h⟩ := h
      have := ih xs c c' (fun e => ha (List.mem_cons_of_mem _ e))
        (fun e => ha' (List.mem_cons_of_mem _ e)) hc hc' h
      exact ⟨by rw [hxy, this.1], this.2⟩

theorem key_eq_iff {re : String → Option ChangePos} {tbl : Char → Char}
    {s : Settings} {chg chg' : String} {d d' : Desc} (hsyn : HashColour s.SynonymousColor)
    (hmut : HashColour s.MutationColor) (h : parseChange re tbl s chg = some d)
    (h' : parseChange re tbl s chg' = some d') :
    d.key = d'.key ↔ d.chg = d'.chg ∧ d.col = d'.col := by
  constructor
  · intro hk
    have hk2 : d.chg.data ++ d.col.data = d'.chg.data ++ d'.col.data := by
      have := congrArg String.data hk
      simpa [Desc.key] using this
    have := append_hash_inj _ _ _ _ (parseChange_chg_no_hash h) (parseChange_chg_no_hash h')
      (parseChange_col_hash hsyn hmut h) (parseChange_col_hash hsyn hmut h') hk2
    exact ⟨String.ext this.1, String.ext this.2⟩
  · rintro ⟨h1, h2⟩
    simp [Desc.key, h1, h2]

/-! ### The whole change list -/

theorem parseAll_some (re : String → Option ChangePos) (tbl : Char → Char) (s : Settings) :
    ∀ cl : List String, (∀ chg ∈ cl, re chg ≠ none) →
      ∃ ds, parseAll re tbl s cl = some ds := by
  intro cl
  induction cl with
  | nil => intro _; exact ⟨[], rfl⟩
  | cons c cs ih =>
    intro h
    obtain ⟨ds, hds⟩ := ih (fun x hx => h x (List.mem_cons_of_mem _ hx))
    cases hp : parseChange re tbl s c with
    | none => exact absurd (parseChange_eq_none.1 hp) (h c (by simp))
    | some d => exact ⟨d :: ds, by simp [parseAll, hp, hds]⟩

theorem parseAll_mem {re : String → Option ChangePos} {tbl : Char → Char} {s : Settings} :
    ∀ {cl : List String} {ds : List Desc}, parseAll re tbl s cl = some ds →
      ∀ d ∈ ds, ∃ chg ∈ cl, parseChange re tbl s chg = some d := by
  intro cl
  induction cl with
  | nil =>
    intro ds h d hd
    simp only [parseAll, Option.some.injEq] at h
    subst h
    simp at hd
  | cons c cs ih =>
    intro ds h d hd
    cases hp : parseChange re tbl s c with
    | none => simp [parseAll, hp] at h
    | some d0 =>
      simp only [parseAll, hp, Option.map_eq_some'] at h
      obtain ⟨ds0, hds0, rfl⟩ := h
      rcases List.mem_cons.1 hd with rfl | hd
      · exact ⟨c, by simp, hp⟩
      · obtain ⟨chg, hchg, hpc⟩ := ih hds0 d hd
        exact ⟨chg, List.mem_cons_of_mem _ hchg, hpc⟩

theorem parseAll_length {re : String → Option ChangePos} {tbl : Char → Char} {s : Settings} :
    ∀ {cl : List String} {ds : List Desc}, parseAll re tbl s cl = some ds →
      ds.length = cl.length := by
  intro cl
  induction cl with
  | nil =>
    intro ds h
    simp only [parseAll, Option.some.injEq] at h
    subst h; rfl
  | cons c cs ih =>
    intro ds h
    cases hp : parseChange re tbl s c with
    | none => simp [parseAll, hp] at h
    | some d0 =>
      simp only [parseAll, hp, Option.map_eq_some'] at h
      obtain ⟨ds0, hds0, rfl⟩ := h
      simp [ih hds0]

theorem aggLoop_eq_aggDescs {re : String → Option ChangePos} {tbl : Char → Char}
    {s : Settings} : ∀ {cl : List String} {ds : List Desc},
      parseAll re tbl s cl = some ds →
      ∀ (i : Nat) (st : AggState), aggLoop re tbl s i cl st = some (aggDescs i ds st) := by
  intro cl
  induction cl with
  | nil =>
    intro ds h i st
    simp only [parseAll, Option.some.injEq] at h
    subst h
    rfl
  | cons c cs ih =>
    intro ds h i st
    cases hp : parseChange re tbl s c with
    | none => simp [parseAll, hp] at h
    | some d0 =>
      simp only [parseAll, hp, Option.map_eq_some'] at h
      obtain ⟨ds0, hds0, rfl⟩ := h
      simp only [aggLoop, aggStep, hp, Option.map_some', aggDescs]
      exact ih hds0 (i + 1) _

/-! ### One iteration of the loop -/

theorem splitCount_of_no_at {l : List Char} (h : '@' ∉ l) : splitCount l = (1, l) := by
  unfold splitCount
  rw [splitFirst_eq_none.2 h]

theorem splitCount_append (p0 p1 : List Char) (h : '@' ∉ p0) :
    splitCount (p0 ++ '@' :: p1) = ((scanInt (String.mk p1)).getD 1, p0) := by
  unfold splitCount
  rw [splitFirst_append p0 p1 h]

theorem splitColour_of_no_hash (col0 : String) {l : List Char} (h : '#' ∉ l) :
    splitColour col0 l = (col0, l) := by
  unfold splitColour
  rw [splitFirst_eq_none.2 h]

theorem splitColour_append (col0 : String) (p0 p1 : List Char) (h : '#' ∉ p0) :
    splitColour col0 (p0 ++ '#' :: p1) = ("#" ++ String.mk p1, p0) := by
  unfold splitColour
  rw [splitFirst_append p0 p1 h]

theorem splitCount_no_hash {l : List Char} (h : '#' ∉ l) : '#' ∉ (splitCount l).2 := by
  unfold splitCount
  split
  · rename_i parts hs
    have := @splitFirst_eq_some _ _ parts.1 parts.2 hs
    intro hmem
    apply h
    rw [this.1]
    exact List.mem_append_left _ hmem
  · exact h

theorem aggStep_new {re : String → Option ChangePos} {tbl : Char → Char} {s : Settings}
    {chg : String} {d : Desc} (hp : parseChange re tbl s chg = some d) (st : AggState)
    (i : Nat) (hnew : st.popMatch.lookup d.key = none) :
    aggStep re tbl s st i chg = some (appendMarker st i d) := by
  simp [aggStep, hp, aggInsert, hnew, appendMarker]

theorem isHexDigit_ne_at {c : Char} (h : isHexDigit c = true) : c ≠ '@' := by
  rintro rfl
  revert h
  decide

/-- Facts on the lookup of keys after the loop. -/
theorem markerIndex_spec (cl : List String) (ds : List Desc)
    (hr : ∀ d ∈ ds, InIntRange d.cnt) (d : Desc) (hd : d ∈ ds) :
    markerIndex (aggDescs 0 ds ⟨cl, [], []⟩) d =
        some ((firstOccurrences (ds.map Desc.key)).indexOf d.key) ∧
      (firstOccurrences (ds.map Desc.key)).indexOf d.key <
        (aggDescs 0 ds ⟨cl, [], []⟩).pops.length := by
  obtain ⟨hp, hm⟩ := aggDescs_spec cl ds hr
  have hk : d.key ∈ ds.map Desc.key := List.mem_map.2 ⟨d, hd, rfl⟩
  constructor
  · unfold markerIndex
    rw [hm d.key, if_pos hk]
  · rw [hp, List.length_map]
    exact List.indexOf_lt_length.2 ((mem_firstOccurrences _ _).2 hk)

/-! ## Aggregation (claims C1 to C4) -/

theorem firstOccurrences_map {α β : Type} [DecidableEq α] [DecidableEq β] (f : α → β) :
    ∀ l : List α, (∀ a ∈ l, ∀ b ∈ l, f a = f b → a = b) →
      firstOccurrences (l.map f) = (firstOccurrences l).map f := by
  intro l
  induction l with
  | nil => intro _; rfl
  | cons a l ih =>
    intro hinj
    have hinj' : ∀ x ∈ l, ∀ y ∈ l, f x = f y → x = y :=
      fun x hx y hy => hinj x (List.mem_cons_of_mem _ hx) y (List.mem_cons_of_mem _ hy)
    simp only [List.map_cons, firstOccurrences, ih hinj', List.filter_map]
    congr 2
    apply List.filter_congr
    intro x hx
    have hxl : x ∈ l := (mem_firstOccurrences _ _).1 hx
    have : f x = f a ↔ x = a :=
      ⟨fun h => hinj x (List.mem_cons_of_mem _ hxl) a (List.mem_cons_self _ _) h,
        fun h => by rw [h]⟩
    simp [this]

theorem indexOf_map_of_injOn {α β : Type} [BEq α] [LawfulBEq α] [BEq β] [LawfulBEq β]
    (f : α → β) :
    ∀ (l : List α) (a : α), a ∈ l → (∀ x ∈ l, ∀ y ∈ l, f x = f y → x = y) →
      (l.map f).indexOf (f a) = l.indexOf a := by
  intro l
  induction l with
  | nil => intro a ha; simp at ha
  | cons b l ih =>
    intro a ha hinj
    by_cases hba : b = a
    · subst hba
      simp [List.indexOf_cons]
    · have hal : a ∈ l := by
        rcases List.mem_cons.1 ha with h | h
        · exact absurd h.symm hba
        · exact h
      have hf : f b ≠ f a := fun h =>
        hba (hinj b (List.mem_cons_self _ _) a ha h)
      have h1 : (f b == f a) = false := by simpa using hf
      have h2 : (b == a) = false := by simpa using hba
      rw [List.map_cons, List.indexOf_cons, List.indexOf_cons, h1, h2,
        ih a hal (fun x hx y hy => hinj x (List.mem_cons_of_mem _ hx) y
          (List.mem_cons_of_mem _ hy))]

/-- When equal keys mean equal pairs, the marker of a key is the marker of its pair. -/
theorem markerOf_eq_pairMarker (ds : List Desc)
    (hinj : ∀ d ∈ ds, ∀ d' ∈ ds, d.key = d'.key → d.pair = d'.pair)
    (d : Desc) (hd : d ∈ ds) : markerOf ds d.key = pairMarker ds d.pair := by
  have hinjp : ∀ x ∈ ds.map Desc.pair, ∀ y ∈ ds.map Desc.pair,
      x.1 ++ x.2 = y.1 ++ y.2 → x = y := by
    intro x hx y hy h
    obtain ⟨dx, hdx, rfl⟩ := List.mem_map.1 hx
    obtain ⟨dy, hdy, rfl⟩ := List.mem_map.1 hy
    exact hinj dx hdx dy hdy h
  have hkeys : ds.map Desc.key = (ds.map Desc.pair).map (fun p => p.1 ++ p.2) := by
    rw [List.map_map]; rfl
  have hidx : (ds.map Desc.key).indexOf d.key = (ds.map Desc.pair).indexOf d.pair := by
    rw [hkeys]
    exact indexOf_map_of_injOn (fun p : String × String => p.1 ++ p.2) _ d.pair
      (List.mem_map.2 ⟨d, hd, rfl⟩) hinjp
  have hsum : countSum ds d.key = pairCountSum ds d.pair := by
    unfold countSum pairCountSum
    congr 2
    apply List.filter_congr
    intro x hx
    have : x.key = d.key ↔ x.pair = d.pair :=
      ⟨fun h => hinj x hx d hd h, fun h => by
        have h1 : x.chg = d.chg := congrArg Prod.fst h
        have h2 : x.col = d.col := congrArg Prod.snd h
        simp [Desc.key, h1, h2]⟩
    simp [this]
  unfold markerOf pairMarker
  simp only [hidx, hsum]

theorem aggDescs_pops_by_pair (cl : List String) (ds : List Desc)
    (hr : ∀ d ∈ ds, InIntRange d.cnt)
    (hinj : ∀ d ∈ ds, ∀ d' ∈ ds, d.key = d'.key → d.pair = d'.pair) :
    (aggDescs 0 ds ⟨cl, [], []⟩).pops =
      (firstOccurrences (ds.map Desc.pair)).map (pairMarker ds) := by
  have hinjp : ∀ x ∈ ds.map Desc.pair, ∀ y ∈ ds.map Desc.pair,
      (fun p : String × String => p.1 ++ p.2) x = (fun p : String × String => p.1 ++ p.2) y →
        x = y := by
    intro x hx y hy h
    obtain ⟨dx, hdx, rfl⟩ := List.mem_map.1 hx
    obtain ⟨dy, hdy, rfl⟩ := List.mem_map.1 hy
    exact hinj dx hdx dy hdy h
  have hkeys : ds.map Desc.key = (ds.map Desc.pair).map (fun p => p.1 ++ p.2) := by
    rw [List.map_map]; rfl
  rw [(aggDescs_spec cl ds hr).1, hkeys, firstOccurrences_map _ _ hinjp, List.map_map]
  apply List.map_congr_left
  intro p hp
  obtain ⟨d, hd, rfl⟩ := List.mem_map.1 ((mem_firstOccurrences _ _).1 hp)
  exact markerOf_eq_pairMarker ds hinj d hd

theorem parseAll_getElem {re : String → Option ChangePos} {tbl : Char → Char} {s : Settings} :
    ∀ {cl : List String} {ds : List Desc}, parseAll re tbl s cl = some ds →
      ∀ (i : Nat) (chg : String), cl[i]? = some chg →
        ∃ cpos, re chg = some cpos ∧
          ds[i]? = some
            ⟨String.mk (splitColour (defaultColour s cpos) (splitCount chg.data).2).2,
              (scanInt cpos.pos).getD 0, (splitCount chg.data).1,
              ToLower tbl (splitColour (defaultColour s cpos) (splitCount chg.data).2).1⟩ := by
  intro cl
  induction cl with
  | nil => intro ds _ i chg h; simp at h
  | cons c cs ih =>
    intro ds h i chg hi
    cases hp : parseChange re tbl s c with
    | none => simp [parseAll, hp] at h
    | some d0 =>
      simp only [parseAll, hp, Option.map_eq_some'] at h
      obtain ⟨ds0, hds0, rfl⟩ := h
      cases i with
      | zero =>
        simp only [List.getElem?_cons_zero, Option.some.injEq] at hi
        subst hi
        cases hre : re c with
        | none => rw [parseChange_eq_none.2 hre] at hp; simp at hp
        | some cpos =>
          rw [parseChange_of_match tbl s hre] at hp
          exact ⟨cpos, rfl, by rw [List.getElem?_cons_zero, ← Option.some.inj hp]⟩
      | succ i =>
        have := ih hds0 i chg (by simpa using hi)
        simpa using this

/-- Aggregation by the map key, for all settings: on a change list whose
descriptors are all matched the loop ends and the marker list it builds (before
sorting) holds one marker per distinct map key `chg+col`, in the order of the
first occurrence of the keys; the marker of a key carries the position and
colour of the first descriptor with that key and as `Cnt` the sum of the counts
of all descriptors with that key, as a 64-bit `int`. When the two configured
colours start with `#`, two descriptors have the same map key exactly when they
agree in label and in colour. -/
theorem aggregate_by_map_key (re : String → Option ChangePos) (tbl : Char → Char)
    (s : Settings) (changelist : List String)
    (hmatch : ∀ chg ∈ changelist, re chg ≠ none) :
    ∃ ds st, parseAll re tbl s changelist = some ds ∧
      aggregate re tbl s changelist = some st ∧
      st.pops = (firstOccurrences (ds.map Desc.key)).map (markerOf ds) ∧
      (∀ k, (markerOf ds k).Cnt = wrapInt (countSum ds k) ∧
        (InIntRange (countSum ds k) → (markerOf ds k).Cnt = countSum ds k)) ∧
      (HashColour s.SynonymousColor → HashColour s.MutationColor →
        ∀ d ∈ ds, ∀ d' ∈ ds, (d.key = d'.key ↔ d.chg = d'.chg ∧ d.col = d'.col)) := by
  obtain ⟨ds, hds⟩ := parseAll_some re tbl s changelist hmatch
  have hr : ∀ d ∈ ds, InIntRange d.cnt := by
    intro d hd
    obtain ⟨chg, -, hp⟩ := parseAll_mem hds d hd
    exact parseChange_cnt_inRange hp
  refine ⟨ds, aggDescs 0 ds ⟨changelist, [], []⟩, hds, aggLoop_eq_aggDescs hds 0 _,
    (aggDescs_spec changelist ds hr).1, ?_, ?_⟩
  · intro k
    exact ⟨rfl, fun h => wrapInt_of_inRange h⟩
  · intro hsyn hmut d hd d' hd'
    obtain ⟨chg, -, hp⟩ := parseAll_mem hds d hd
    obtain ⟨chg', -, hp'⟩ := parseAll_mem hds d' hd'
    exact key_eq_iff hsyn hmut hp hp'

/-- C1, counterexample. (a) With the colours `darkred` and `red` the change list
`G50`, `G50dark`, `G50` has two distinct keys (stripped label, lower-cased
colour), `(G50, darkred)` and `(G50dark, red)`, yet the loop builds one marker,
with count 3, while the descriptors with the key `(G50, darkred)` sum to 2.
(b) The counts of `A10T@9223372036854775807` and `A10T@1` sum to `2^63`; the
marker's `Cnt` is `-2^63`. -/
theorem one_marker_per_pair_fails :
    (∃ ds st,
      parseAll stripChangePos asciiOnly darkRedSettings ["G50", "G50dark", "G50"] = some ds ∧
      aggregate stripChangePos asciiOnly darkRedSettings ["G50", "G50dark", "G50"] = some st ∧
      firstOccurrences (ds.map Desc.pair) = [("G50", "darkred"), ("G50dark", "red")] ∧
      st.pops = [⟨50, 0, 3, "darkred"⟩] ∧
      pairCountSum ds ("G50", "darkred") = 2) ∧
    (∃ ds st,
      parseAll stripChangePos asciiOnly sampleSettings
        ["A10T@9223372036854775807", "A10T@1"] = some ds ∧
      aggregate stripChangePos asciiOnly sampleSettings
        ["A10T@9223372036854775807", "A10T@1"] = some st ∧
      firstOccurrences (ds.map Desc.pair) = [("A10T", "#ff0000")] ∧
      st.pops = [⟨10, 0, -9223372036854775808, "#ff0000"⟩] ∧
      pairCountSum ds ("A10T", "#ff0000") = 9223372036854775808) :=
  ⟨⟨[⟨"G50", 50, 1, "darkred"⟩, ⟨"G50dark", 50, 1, "red"⟩, ⟨"G50", 50, 1, "darkred"⟩],
      ⟨["G50", "G50dark", "G50"], [("G50darkred", 0)], [⟨50, 0, 3, "darkred"⟩]⟩,
      by decide, by decide, by decide, rfl, by decide⟩,
    ⟨[⟨"A10T", 10, 9223372036854775807, "#ff0000"⟩, ⟨"A10T", 10, 1, "#ff0000"⟩],
      ⟨["A10T", "A10T"], [("A10T#ff0000", 0)], [⟨10, 0, -9223372036854775808, "#ff0000"⟩]⟩,
      by decide, by decide, by decide, rfl, by decide⟩⟩

/-- C1, amended. Aggregation loop of `Settings.DrawSVG`, for settings whose two
colours start with `#` and a change list whose descriptors are all matched by
the change-string parser: the loop ends; descriptor `i` has the stripped label
(the text before the first `@` and the first `#`), the scanned position, the
count (1 without an `@` suffix) and the lower-cased colour (`ToLower`); the
marker list built before sorting holds exactly one marker per distinct pair
(stripped label, lower-cased colour), in the order of the first occurrence of
the pairs; the marker of a pair has as `Cnt` the sum of the counts of all
descriptors with that pair reduced to the 64-bit `int` range, which is the sum
itself whenever the sum fits in 64 bits. -/
theorem aggregate_one_marker_per_key (re : String → Option ChangePos) (tbl : Char → Char)
    (s : Settings) (changelist : List String)
    (hsyn : HashColour s.SynonymousColor) (hmut : HashColour s.MutationColor)
    (hmatch : ∀ chg ∈ changelist, re chg ≠ none) :
    ∃ ds st, parseAll re tbl s changelist = some ds ∧
      aggregate re tbl s changelist = some st ∧
      ds.length = changelist.length ∧
      (∀ (i : Nat) (chg : String), changelist[i]? = some chg →
        ∃ cpos, re chg = some cpos ∧
          ds[i]? = some
            ⟨String.mk (splitColour (defaultColour s cpos) (splitCount chg.data).2).2,
              (scanInt cpos.pos).getD 0, (splitCount chg.data).1,
              ToLower tbl (splitColour (defaultColour s cpos) (splitCount chg.data).2).1⟩ ∧
          ('@' ∉ chg.data → (splitCount chg.data).1 = 1)) ∧
      st.pops = (firstOccurrences (ds.map Desc.pair)).map (pairMarker ds) ∧
      (firstOccurrences (ds.map Desc.pair)).Nodup ∧
      (∀ k, k ∈ firstOccurrences (ds.map Desc.pair) ↔ ∃ d ∈ ds, (d.chg, d.col) = k) ∧
      (∀ k, (pairMarker ds k).Cnt = wrapInt (pairCountSum ds k) ∧
        (InIntRange (pairCountSum ds k) → (pairMarker ds k).Cnt = pairCountSum ds k)) := by
  obtain ⟨ds, hds⟩ := parseAll_some re tbl s changelist hmatch
  have hr : ∀ d ∈ ds, InIntRange d.cnt := by
    intro d hd
    obtain ⟨chg, -, hp⟩ := parseAll_mem hds d hd
    exact parseChange_cnt_inRange hp
  have hinj : ∀ d ∈ ds, ∀ d' ∈ ds, d.key = d'.key → d.pair = d'.pair := by
    intro d hd d' hd' hk
    obtain ⟨chg, -, hp⟩ := parseAll_mem hds d hd
    obtain ⟨chg', -, hp'⟩ := parseAll_mem hds d' hd'
    have := (key_eq_iff hsyn hmut hp hp').1 hk
    exact Prod.ext this.1 this.2
  refine ⟨ds, aggDescs 0 ds ⟨changelist, [], []⟩, hds, aggLoop_eq_aggDescs hds 0 _,
    parseAll_length hds, ?_, aggDescs_pops_by_pair changelist ds hr hinj,
    nodup_firstOccurrences _, ?_, ?_⟩
  · intro i chg hi
    obtain ⟨cpos, hre, hd⟩ := parseAll_getElem hds i chg hi
    exact ⟨cpos, hre, hd, fun h => by rw [splitCount_of_no_at h]⟩
  · intro k
    rw [mem_firstOccurrences, List.mem_map]
    rfl
  · intro k
    exact ⟨rfl, fun h => wrapInt_of_inRange h⟩

/-- Witness of the amended C1 on the change list `A10T`, `A10T`, `G50C@2`, which
yields a marker at position 10 with count 2 and a marker at position 50 with
count 2. -/
theorem aggregate_one_marker_per_key_witness :
    (∃ ds st,
      parseAll stripChangePos asciiOnly sampleSettings ["A10T", "A10T", "G50C@2"] = some ds ∧
      aggregate stripChangePos asciiOnly sampleSettings ["A10T", "A10T", "G50C@2"] = some st ∧
      ds.length = ["A10T", "A10T", "G50C@2"].length ∧
      (∀ (i : Nat) (chg : String), ["A10T", "A10T", "G50C@2"][i]? = some chg →
        ∃ cpos, stripChangePos chg = some cpos ∧
          ds[i]? = some
            ⟨String.mk (splitColour (defaultColour sampleSettings cpos)
                (splitCount chg.data).2).2,
              (scanInt cpos.pos).getD 0, (splitCount chg.data).1,
              ToLower asciiOnly (splitColour (defaultColour sampleSettings cpos)
                (splitCount chg.data).2).1⟩ ∧
          ('@' ∉ chg.data → (splitCount chg.data).1 = 1)) ∧
      st.pops = (firstOccurrences (ds.map Desc.pair)).map (pairMarker ds) ∧
      (firstOccurrences (ds.map Desc.pair)).Nodup ∧
      (∀ k, k ∈ firstOccurrences (ds.map Desc.pair) ↔ ∃ d ∈ ds, (d.chg, d.col) = k) ∧
      (∀ k, (pairMarker ds k).Cnt = wrapInt (pairCountSum ds k) ∧
        (InIntRange (pairCountSum ds k) → (pairMarker ds k).Cnt = pairCountSum ds k))) ∧
    parseAll stripChangePos asciiOnly sampleSettings ["A10T", "A10T", "G50C@2"] =
      some [⟨"A10T", 10, 1, "#ff0000"⟩, ⟨"A10T", 10, 1, "#ff0000"⟩, ⟨"G50C", 50, 2, "#ff0000"⟩] ∧
    (aggregate stripChangePos asciiOnly sampleSettings ["A10T", "A10T", "G50C@2"]).map
        AggState.pops =
      some [⟨10, 0, 2, "#ff0000"⟩, ⟨50, -2, 2, "#ff0000"⟩] :=
  ⟨aggregate_one_marker_per_key stripChangePos asciiOnly sampleSettings
    ["A10T", "A10T", "G50C@2"] (by decide) (by decide) (by decide), by decide, by decide⟩

/-- C2, counterexample. With the colours `darkred` and `red` the descriptors
`A10` and `A10dark` have different labels and different colours, yet both are
counted by the one marker the loop builds: the keys `A10`+`darkred` and
`A10dark`+`red` are the same string. -/
theorem merge_key_collision :
    ∃ ds st, parseAll stripChangePos asciiOnly darkRedSettings ["A10", "A10dark"] = some ds ∧
      aggregate stripChangePos asciiOnly darkRedSettings ["A10", "A10dark"] = some st ∧
      st.pops = [⟨10, 0, 2, "darkred"⟩] ∧
      ∃ d ∈ ds, ∃ d' ∈ ds, markerIndex st d = some 0 ∧ markerIndex st d' = some 0 ∧
        d.chg ≠ d'.chg ∧ d.col ≠ d'.col :=
  ⟨[⟨"A10", 10, 1, "darkred"⟩, ⟨"A10dark", 10, 1, "red"⟩],
    ⟨["A10", "A10dark"], [("A10darkred", 0)], [⟨10, 0, 2, "darkred"⟩]⟩,
    by decide, by decide, rfl,
    ⟨"A10", 10, 1, "darkred"⟩, by decide, ⟨"A10dark", 10, 1, "red"⟩, by decide,
    by decide, by decide, by decide, by decide⟩

/-- C2, amended. For settings whose two colours start with `#` and a change
list whose descriptors are all matched, every descriptor is counted by a marker
of the final list, and two descriptors are counted by the same marker if and
only if their stripped labels are equal and their lower-cased colours are
equal. -/
theorem merge_iff_same_label_and_colour (re : String → Option ChangePos) (tbl : Char → Char)
    (s : Settings) (changelist : List String)
    (hsyn : HashColour s.SynonymousColor) (hmut : HashColour s.MutationColor)
    (hmatch : ∀ chg ∈ changelist, re chg ≠ none) :
    ∃ ds st, parseAll re tbl s changelist = some ds ∧
      aggregate re tbl s changelist = some st ∧
      ∀ d ∈ ds, ∀ d' ∈ ds,
        (∃ i j, markerIndex st d = some i ∧ markerIndex st d' = some j ∧
          i < st.pops.length ∧ j < st.pops.length) ∧
        (markerIndex st d = markerIndex st d' ↔ d.chg = d'.chg ∧ d.col = d'.col) := by
  obtain ⟨ds, hds⟩ := parseAll_some re tbl s changelist hmatch
  have hr : ∀ d ∈ ds, InIntRange d.cnt := by
    intro d hd
    obtain ⟨chg, -, hp⟩ := parseAll_mem hds d hd
    exact parseChange_cnt_inRange hp
  refine ⟨ds, aggDescs 0 ds ⟨changelist, [], []⟩, hds, aggLoop_eq_aggDescs hds 0 _, ?_⟩
  intro d hd d' hd'
  obtain ⟨h1, h1l⟩ := markerIndex_spec changelist ds hr d hd
  obtain ⟨h2, h2l⟩ := markerIndex_spec changelist ds hr d' hd'
  refine ⟨⟨_, _, h1, h2, h1l, h2l⟩, ?_⟩
  obtain ⟨chg, -, hp⟩ := parseAll_mem hds d hd
  obtain ⟨chg', -, hp'⟩ := parseAll_mem hds d' hd'
  rw [← key_eq_iff hsyn hmut hp hp', h1, h2, Option.some.injEq]
  have hk : d.key ∈ firstOccurrences (ds.map Desc.key) :=
    (mem_firstOccurrences _ _).2 (List.mem_map.2 ⟨d, hd, rfl⟩)
  have hk' : d'.key ∈ firstOccurrences (ds.map Desc.key) :=
    (mem_firstOccurrences _ _).2 (List.mem_map.2 ⟨d', hd', rfl⟩)
  exact List.indexOf_inj hk hk'

/-- Witness of the amended C2 on three descriptors of one label and two colours. -/
theorem merge_iff_same_label_and_colour_witness :
    ∃ ds st,
      parseAll stripChangePos asciiOnly sampleSettings
        ["A10T", "A10T#FF0000", "A10T#00ff00"] = some ds ∧
      aggregate stripChangePos asciiOnly sampleSettings
        ["A10T", "A10T#FF0000", "A10T#00ff00"] = some st ∧
      ∀ d ∈ ds, ∀ d' ∈ ds,
        (∃ i j, markerIndex st d = some i ∧ markerIndex st d' = some j ∧
          i < st.pops.length ∧ j < st.pops.length) ∧
        (markerIndex st d = markerIndex st d' ↔ d.chg = d'.chg ∧ d.col = d'.col) :=
  merge_iff_same_label_and_colour stripChangePos asciiOnly sampleSettings
    ["A10T", "A10T#FF0000", "A10T#00ff00"] (by decide) (by decide) (by decide)

/-- C3, counterexample. The descriptor `A10T` carries no `#` suffix and its
marker gets the mutation colour `#ff0000`, not the synonymous colour. -/
theorem mutation_colour_example :
    '#' ∉ "A10T".data ∧
      parseChange stripChangePos asciiOnly sampleSettings "A10T" =
        some ⟨"A10T", 10, 1, "#ff0000"⟩ ∧
      (aggregate stripChangePos asciiOnly sampleSettings ["A10T"]).map AggState.pops =
        some [⟨10, 0, 1, "#ff0000"⟩] ∧
      "#ff0000" ≠ ToLower asciiOnly sampleSettings.SynonymousColor := by
  decide

/-- C3, amended. For a descriptor without `#` that the parser matches, the
colour of the marker it creates is the lower-cased `SynonymousColor` when its
mutant residue is empty, is `=` or equals the wild-type residue, and the
lower-cased `MutationColor` otherwise. -/
theorem default_colour_by_residues (re : String → Option ChangePos) (tbl : Char → Char)
    (s : Settings) (chg : String) (cpos : ChangePos)
    (hno : '#' ∉ chg.data) (hre : re chg = some cpos) :
    ∃ d, parseChange re tbl s chg = some d ∧
      d.col = ToLower tbl
        (if cpos.mutant ≠ "" ∧ cpos.mutant ≠ "=" ∧ cpos.mutant ≠ cpos.wild
          then s.MutationColor else s.SynonymousColor) ∧
      ∀ (st : AggState) (i : Nat), st.popMatch.lookup d.key = none →
        aggStep re tbl s st i chg = some (appendMarker st i d) ∧
        (appendMarker st i d).pops = st.pops ++ [⟨d.spos, -(i : Int), d.cnt, d.col⟩] := by
  have hp := parseChange_of_match tbl s hre
  rw [splitColour_of_no_hash _ (splitCount_no_hash hno)] at hp
  refine ⟨_, hp, rfl, ?_⟩
  intro st i hnew
  exact ⟨aggStep_new hp st i hnew, rfl⟩

/-- Witness of the amended C3 on the synonymous change `A10A@3`. -/
theorem default_colour_by_residues_witness :
    ∃ d, parseChange stripChangePos asciiOnly sampleSettings "A10A@3" = some d ∧
      d.col = ToLower asciiOnly
        (if (⟨"A", "10", "A"⟩ : ChangePos).mutant ≠ "" ∧
            (⟨"A", "10", "A"⟩ : ChangePos).mutant ≠ "=" ∧
            (⟨"A", "10", "A"⟩ : ChangePos).mutant ≠ (⟨"A", "10", "A"⟩ : ChangePos).wild
          then sampleSettings.MutationColor else sampleSettings.SynonymousColor) ∧
      ∀ (st : AggState) (i : Nat), st.popMatch.lookup d.key = none →
        aggStep stripChangePos asciiOnly sampleSettings st i "A10A@3" =
          some (appendMarker st i d) ∧
        (appendMarker st i d).pops = st.pops ++ [⟨d.spos, -(i : Int), d.cnt, d.col⟩] :=
  default_colour_by_residues stripChangePos asciiOnly sampleSettings "A10A@3"
    ⟨"A", "10", "A"⟩ (by decide) (by decide)

/-- C4, counterexample. In `A10T@3#00FF00` the count suffix comes first; the
marker has count 3 and label `A10T`, but its colour is the mutation colour
`#ff0000`, not the lower-cased `#00FF00`. -/
theorem colour_after_count_ignored :
    parseChange stripChangePos asciiOnly sampleSettings "A10T@3#00FF00" =
        some ⟨"A10T", 10, 3, "#ff0000"⟩ ∧
      (aggregate stripChangePos asciiOnly sampleSettings ["A10T@3#00FF00"]) =
        some ⟨["A10T"], [("A10T#ff0000", 0)], [⟨10, 0, 3, "#ff0000"⟩]⟩ ∧
      "#ff0000" ≠ ToLower asciiOnly "#00FF00" := by
  decide

/-- C4, amended. For a label `L` without `@` and `#`, a colour `c` of
hexadecimal digits and a count `n` below `2^63`: the descriptors `L#c` and
`L#c@n` yield the label `L`, the colour lower-cased `#c` and the count 1,
respectively `n`; the descriptor `L@n#c` yields the label `L` and the count `n`
with the default colour of its residues. Whenever the key of a descriptor is
new, the iteration appends a marker with that count and colour and stores the
label in the change list. -/
theorem colour_override (re : String → Option ChangePos) (tbl : Char → Char)
    (s : Settings) (L c : String) (n : Nat)
    (hLat : '@' ∉ L.data) (hLhash : '#' ∉ L.data)
    (hc : ∀ x ∈ c.data, isHexDigit x = true) (hn : n < 2 ^ 63)
    (cpos1 cpos2 cpos3 : ChangePos)
    (hre1 : re (L ++ "#" ++ c) = some cpos1)
    (hre2 : re (L ++ "#" ++ c ++ "@" ++ Nat.repr n) = some cpos2)
    (hre3 : re (L ++ "@" ++ Nat.repr n ++ "#" ++ c) = some cpos3) :
    parseChange re tbl s (L ++ "#" ++ c) =
        some ⟨L, (scanInt cpos1.pos).getD 0, 1, ToLower tbl ("#" ++ c)⟩ ∧
      parseChange re tbl s (L ++ "#" ++ c ++ "@" ++ Nat.repr n) =
        some ⟨L, (scanInt cpos2.pos).getD 0, n, ToLower tbl ("#" ++ c)⟩ ∧
      parseChange re tbl s (L ++ "@" ++ Nat.repr n ++ "#" ++ c) =
        some ⟨L, (scanInt cpos3.pos).getD 0, n, ToLower tbl (defaultColour s cpos3)⟩ ∧
      ∀ (chg : String) (d : Desc) (st : AggState) (i : Nat),
        parseChange re tbl s chg = some d → st.popMatch.lookup d.key = none →
        aggStep re tbl s st i chg = some (appendMarker st i d) ∧
        (appendMarker st i d).pops = st.pops ++ [⟨d.spos, -(i : Int), d.cnt, d.col⟩] ∧
        (appendMarker st i d).changelist = st.changelist.set i d.chg := by
  have hcat : '@' ∉ c.data := fun h => isHexDigit_ne_at (hc _ h) rfl
  have hLc : '@' ∉ L.data ++ '#' :: c.data := by
    simp only [List.mem_append, List.mem_cons, not_or]
    exact ⟨hLat, by decide, hcat⟩
  refine ⟨?_, ?_, ?_, ?_⟩
  · have hp := parseChange_of_match tbl s hre1
    have hd : (L ++ "#" ++ c).data = L.data ++ '#' :: c.data := by
      simp [String.data_append]
    rw [hd, splitCount_of_no_at hLc, splitColour_append _ _ _ hLhash] at hp
    exact hp
  · have hp := parseChange_of_match tbl s hre2
    have hd : (L ++ "#" ++ c ++ "@" ++ Nat.repr n).data =
        (L.data ++ '#' :: c.data) ++ '@' :: (Nat.repr n).data := by
      simp [String.data_append]
    have hscan : scanInt (String.mk (Nat.repr n).data) = some (n : Int) := by
      have := scanInt_repr_append n hn [] (by simp)
      simpa using this
    rw [hd, splitCount_append _ _ hLc, hscan, splitColour_append _ _ _ hLhash] at hp
    exact hp
  · have hp := parseChange_of_match tbl s hre3
    have hd : (L ++ "@" ++ Nat.repr n ++ "#" ++ c).data =
        L.data ++ '@' :: ((Nat.repr n).data ++ '#' :: c.data) := by
      simp [String.data_append]
    have hscan : scanInt (String.mk ((Nat.repr n).data ++ '#' :: c.data)) = some (n : Int) :=
      scanInt_repr_append n hn _ (by
        intro x hx
        simp only [List.head?_cons, Option.some.injEq] at hx
        subst hx
        decide)
    rw [hd, splitCount_append _ _ hLat, hscan, splitColour_of_no_hash _ hLhash] at hp
    exact hp
  · intro chg d st i hp hnew
    exact ⟨aggStep_new hp st i hnew, rfl, rfl⟩

/-- Witness of the amended C4 for the label `A10T`, the colour `00FF00` and the count 3. -/
theorem colour_override_witness :
    parseChange stripChangePos asciiOnly sampleSettings ("A10T" ++ "#" ++ "00FF00") =
        some ⟨"A10T", (scanInt (⟨"A", "10", "T"⟩ : ChangePos).pos).getD 0, 1,
          ToLower asciiOnly ("#" ++ "00FF00")⟩ ∧
      parseChange stripChangePos asciiOnly sampleSettings
          ("A10T" ++ "#" ++ "00FF00" ++ "@" ++ Nat.repr 3) =
        some ⟨"A10T", (scanInt (⟨"A", "10", "T"⟩ : ChangePos).pos).getD 0, (3 : Nat),
          ToLower asciiOnly ("#" ++ "00FF00")⟩ ∧
      parseChange stripChangePos asciiOnly sampleSettings
          ("A10T" ++ "@" ++ Nat.repr 3 ++ "#" ++ "00FF00") =
        some ⟨"A10T", (scanInt (⟨"A", "10", "T"⟩ : ChangePos).pos).getD 0, (3 : Nat),
          ToLower asciiOnly (defaultColour sampleSettings ⟨"A", "10", "T"⟩)⟩ ∧
      ∀ (chg : String) (d : Desc) (st : AggState) (i : Nat),
        parseChange stripChangePos asciiOnly sampleSettings chg = some d →
        st.popMatch.lookup d.key = none →
        aggStep stripChangePos asciiOnly sampleSettings st i chg = some (appendMarker st i d) ∧
        (appendMarker st i d).pops = st.pops ++ [⟨d.spos, -(i : Int), d.cnt, d.col⟩] ∧
        (appendMarker st i d).changelist = st.changelist.set i d.chg :=
  colour_override stripChangePos asciiOnly sampleSettings "A10T" "00FF00" 3
    (by decide) (by decide) (by decide) (by norm_num)
    ⟨"A", "10", "T"⟩ ⟨"A", "10", "T"⟩ ⟨"A", "10", "T"⟩ (by decide) (by decide) (by decide)

/-! ## Stagger computation (claims C5 and C6) -/

theorem stackHeight_add (radius : Tick → ℚ) (popSpace : Int) (pop : Tick) :
    ∀ (rest : List Tick) (h δ : ℚ),
      stackHeight radius popSpace pop rest (h + δ) = stackHeight radius popSpace pop rest h + δ := by
  intro rest
  induction rest with
  | nil => intro h δ; rfl
  | cons q rest ih =>
    intro h δ
    simp only [stackHeight]
    split_ifs
    · rfl
    · rw [← ih (h + (1 / 2 + radius pop * 3)) δ]
      congr 1
      ring

theorem le_stackHeight (radius : Tick → ℚ) (popSpace : Int) (pop : Tick)
    (hrad : 0 ≤ radius pop) :
    ∀ (rest : List Tick) (h : ℚ), h ≤ stackHeight radius popSpace pop rest h := by
  intro rest
  induction rest with
  | nil => intro h; exact le_refl _
  | cons q rest ih =>
    intro h
    simp only [stackHeight]
    split_ifs
    · exact le_refl _
    · have := ih (h + (1 / 2 + radius pop * 3))
      linarith

theorem stackHeight_far (radius : Tick → ℚ) (popSpace : Int) (pop : Tick) (lo : Int)
    (hlo : lo - pop.Pos > popSpace) :
    ∀ (rest : List Tick) (h : ℚ), (∀ q ∈ rest, lo ≤ q.Pos) →
      stackHeight radius popSpace pop rest h = h := by
  intro rest h hall
  cases rest with
  | nil => rfl
  | cons q rest =>
    have hq := hall q (by simp)
    have : q.Pos - pop.Pos > popSpace := by omega
    simp [stackHeight, this]

theorem stackHeight_insert (radius : Tick → ℚ) (popSpace : Int) (pop x : Tick)
    (hrad : 0 ≤ radius pop) (r2 : List Tick) (hx : ∀ q ∈ r2, x.Pos ≤ q.Pos) :
    ∀ (r1 : List Tick) (h : ℚ),
      stackHeight radius popSpace pop (r1 ++ r2) h ≤
        stackHeight radius popSpace pop (r1 ++ x :: r2) h := by
  intro r1
  induction r1 with
  | nil =>
    intro h
    simp only [List.nil_append, stackHeight]
    split_ifs with hfar
    · rw [stackHeight_far radius popSpace pop x.Pos hfar r2 h hx]
    · rw [stackHeight_add]
      linarith
  | cons q r1 ih =>
    intro h
    simp only [List.cons_append, stackHeight, List.append_eq]
    split_ifs
    · exact le_refl _
    · exact ih _

theorem maxStaggeredLoop_mono (s : Settings) (radius : Tick → ℚ) (popSpace : Int) :
    ∀ (l : List Tick) (m m' : ℚ), m ≤ m' →
      maxStaggeredLoop s radius popSpace l m ≤ maxStaggeredLoop s radius popSpace l m' := by
  intro l
  induction l with
  | nil => intro m m' h; exact h
  | cons p l ih =>
    intro m m' h
    simp only [maxStaggeredLoop]
    apply ih
    split_ifs <;> linarith

theorem le_maxStaggeredLoop (s : Settings) (radius : Tick → ℚ) (popSpace : Int) :
    ∀ (l : List Tick) (m : ℚ), m ≤ maxStaggeredLoop s radius popSpace l m := by
  intro l
  induction l with
  | nil => intro m; exact le_refl _
  | cons p l ih =>
    intro m
    simp only [maxStaggeredLoop]
    refine le_trans ?_ (ih _)
    split_ifs <;> linarith

theorem maxStaggeredLoop_insert (s : Settings) (radius : Tick → ℚ) (popSpace : Int)
    (hrad : ∀ t, 0 ≤ radius t) (x : Tick) (post : List Tick)
    (hx : ∀ q ∈ post, x.Pos ≤ q.Pos) :
    ∀ (pre : List Tick) (m m' : ℚ), m ≤ m' →
      maxStaggeredLoop s radius popSpace (pre ++ post) m ≤
        maxStaggeredLoop s radius popSpace (pre ++ x :: post) m' := by
  intro pre
  induction pre with
  | nil =>
    intro m m' h
    simp only [List.nil_append, maxStaggeredLoop]
    apply maxStaggeredLoop_mono
    split_ifs <;> linarith
  | cons p pre ih =>
    intro m m' h
    simp only [List.cons_append, maxStaggeredLoop, List.append_eq]
    apply ih
    have := stackHeight_insert radius popSpace p x (hrad p) post hx pre
      (s.LollipopRadius + s.LollipopHeight)
    split_ifs <;> linarith

/-- C5, the code at the failing input. For the markers at 10 (count 1) and 11
(count 5) with `popSpace = 5`, the loop of lines 84-96 yields 89/2: it adds
`0.5 + 3 * radius` of the marker at 10 itself, where the design document (and
the drawing loop of lines 122-127) uses the radius of the later neighbour,
which gives 113/2. -/
theorem maxStaggered_own_radius_example :
    PosSorted [⟨10, 0, 1, "#ff0000"⟩, ⟨11, -1, 5, "#ff0000"⟩] ∧
      maxStaggered sampleSettings (sampleRadius sampleSettings) 5
        [⟨10, 0, 1, "#ff0000"⟩, ⟨11, -1, 5, "#ff0000"⟩] = 89 / 2 ∧
      specMaxStaggered sampleSettings (sampleRadius sampleSettings) 5
        [⟨10, 0, 1, "#ff0000"⟩, ⟨11, -1, 5, "#ff0000"⟩] = 113 / 2 := by
  refine ⟨by simp [PosSorted], ?_, ?_⟩
  · norm_num [maxStaggered, maxStaggeredLoop, stackHeight, sampleRadius, sampleSettings]
  · norm_num [specMaxStaggered, specContributions, specContribution, sampleRadius,
      sampleSettings]

/-- C6. Stagger monotonicity: for a position-sorted marker list, `popSpace >= 0`
and a radius function without negative values, inserting a marker `x` strictly
between two close markers `a` and `b` (the list staying sorted) does not lower
`maxStaggered`. -/
theorem maxStaggered_insert_between (s : Settings) (radius : Tick → ℚ) (popSpace : Int)
    (pre post : List Tick) (a b x : Tick)
    (hsorted : PosSorted (pre ++ post)) (hsorted' : PosSorted (pre ++ x :: post))
    (hspace : 0 ≤ popSpace) (hrad : ∀ t, 0 ≤ radius t)
    (ha : a ∈ pre) (hb : b ∈ post) (hclose : b.Pos - a.Pos ≤ popSpace)
    (hax : a.Pos < x.Pos) (hxb : x.Pos < b.Pos) :
    maxStaggered s radius popSpace (pre ++ post) ≤
      maxStaggered s radius popSpace (pre ++ x :: post) := by
  have hx : ∀ q ∈ post, x.Pos ≤ q.Pos := by
    unfold PosSorted at hsorted'
    have h1 := (List.pairwise_append.1 hsorted').2.1
    exact fun q hq => (List.pairwise_cons.1 h1).1 q hq
  exact maxStaggeredLoop_insert s radius popSpace hrad x post hx pre _ _ (le_refl _)

/-- Witness of C6: a marker at 49 inserted between the markers at 48 and 50. -/
theorem maxStaggered_insert_between_witness :
    maxStaggered sampleSettings (sampleRadius sampleSettings) 5
        ([⟨48, 0, 1, "#ff0000"⟩] ++ [⟨50, -1, 2, "#ff0000"⟩]) ≤
      maxStaggered sampleSettings (sampleRadius sampleSettings) 5
        ([⟨48, 0, 1, "#ff0000"⟩] ++ ⟨49, -2, 3, "#ff0000"⟩ :: [⟨50, -1, 2, "#ff0000"⟩]) :=
  maxStaggered_insert_between sampleSettings (sampleRadius sampleSettings) 5
    [⟨48, 0, 1, "#ff0000"⟩] [⟨50, -1, 2, "#ff0000"⟩]
    ⟨48, 0, 1, "#ff0000"⟩ ⟨50, -1, 2, "#ff0000"⟩ ⟨49, -2, 3, "#ff0000"⟩
    (by simp [PosSorted]) (by simp [PosSorted]) (by decide)
    (by
      intro t
      unfold sampleRadius
      split_ifs with h
      · norm_num [sampleSettings]
      · have : (1 : ℚ) ≤ (t.Cnt : ℚ) := by
          have : (1 : Int) ≤ t.Cnt := by omega
          exact_mod_cast this
        norm_num [sampleSettings]
        linarith)
    (by simp) (by simp) (by decide) (by decide) (by decide)

/-! ## Axis ticks (claims C7 to C9) -/

/-! ### Lookahead -/

theorem nextBetterScan_eq_or_ge (posI maxDist : Int) :
    ∀ (rest : List Tick) (j best : Nat) (bp : Int),
      nextBetterScan posI maxDist rest j best bp = best ∨
        j ≤ nextBetterScan posI maxDist rest j best bp := by
  intro rest
  induction rest with
  | nil => intro j best bp; exact Or.inl rfl
  | cons t rest ih =>
    intro j best bp
    simp only [nextBetterScan]
    split_ifs
    · rcases ih (j + 1) j t.Pri with h | h
      · right; omega
      · right; omega
    · rcases ih (j + 1) best bp with h | h
      · exact Or.inl h
      · right; omega
    · exact Or.inl rfl

theorem nextBetterScan_of_le (posI maxDist : Int) :
    ∀ (rest : List Tick) (j best : Nat) (bp : Int), (∀ t ∈ rest, t.Pri ≤ bp) →
      nextBetterScan posI maxDist rest j best bp = best := by
  intro rest
  induction rest with
  | nil => intro j best bp _; rfl
  | cons t rest ih =>
    intro j best bp h
    have ht : ¬ t.Pri > bp := by have := h t (by simp); omega
    simp only [nextBetterScan, ht, if_false]
    split_ifs
    · exact ih _ _ _ (fun x hx => h x (List.mem_cons_of_mem _ hx))
    · rfl

theorem nextBetterScan_ne (posI maxDist : Int) :
    ∀ (rest : List Tick) (j best : Nat) (bp : Int) (k : Nat) (t : Tick), best < j →
      rest[k]? = some t → t.Pri > bp →
      (∀ k' ≤ k, ∀ t', rest[k']? = some t' → t'.Pos - posI < maxDist) →
      nextBetterScan posI maxDist rest j best bp ≠ best := by
  intro rest
  induction rest with
  | nil => intro j best bp k t _ hk; simp at hk
  | cons t0 rest ih =>
    intro j best bp k t hb hk hpri hwin
    have h0 : t0.Pos - posI < maxDist := hwin 0 (Nat.zero_le _) t0 (by simp)
    simp only [nextBetterScan, h0, if_true]
    split_ifs with hp
    · rcases nextBetterScan_eq_or_ge posI maxDist rest (j + 1) j t0.Pri with h | h
      · rw [h]; omega
      · omega
    · cases k with
      | zero =>
        simp only [List.getElem?_cons_zero, Option.some.injEq] at hk
        subst hk
        exact absurd hpri hp
      | succ k =>
        apply ih (j + 1) best bp k t (by omega) (by simpa using hk) hpri
        intro k' hk' t' ht'
        exact hwin (k' + 1) (by omega) t' (by simpa using ht')

/-- A candidate with a better one ahead in its window is not best. -/
theorem NextBetter_ne (ts : List Tick) (maxDist : Int) (i j : Nat) (ti tj : Tick)
    (hij : i < j) (hi : ts[i]? = some ti) (hj : ts[j]? = some tj) (hpri : ti.Pri < tj.Pri)
    (hwin : ∀ k t, i < k → k ≤ j → ts[k]? = some t → t.Pos - ti.Pos < maxDist) :
    NextBetter ts i maxDist ≠ i := by
  have hlt : i < ts.length := by
    rcases List.getElem?_eq_some.1 hi with ⟨h, -⟩
    exact h
  have hdrop : ts.drop i = ti :: ts.drop (i + 1) := by
    rw [List.drop_eq_getElem_cons hlt]
    congr 1
    rcases List.getElem?_eq_some.1 hi with ⟨_, h2⟩
    exact h2
  unfold NextBetter
  rw [hdrop]
  apply nextBetterScan_ne ti.Pos maxDist _ (i + 1) i ti.Pri (j - (i + 1)) tj (by omega)
  · rw [List.getElem?_drop]
    have : i + 1 + (j - (i + 1)) = j := by omega
    rw [this]; exact hj
  · exact hpri
  · intro k' hk' t' ht'
    rw [List.getElem?_drop] at ht'
    exact hwin (i + 1 + k') t' (by omega) (by omega) ht'

/-- A candidate that no later candidate outranks is best in its window. -/
theorem NextBetter_eq (ts : List Tick) (maxDist : Int) (i : Nat) (ti : Tick)
    (hi : ts[i]? = some ti)
    (hall : ∀ k t, i < k → ts[k]? = some t → t.Pri ≤ ti.Pri) :
    NextBetter ts i maxDist = i := by
  have hlt : i < ts.length := by
    rcases List.getElem?_eq_some.1 hi with ⟨h, -⟩
    exact h
  have hdrop : ts.drop i = ti :: ts.drop (i + 1) := by
    rw [List.drop_eq_getElem_cons hlt]
    congr 1
    rcases List.getElem?_eq_some.1 hi with ⟨_, h2⟩
    exact h2
  unfold NextBetter
  rw [hdrop]
  apply nextBetterScan_of_le
  intro t ht
  obtain ⟨k, hk⟩ := List.getElem?_of_mem ht
  rw [List.getElem?_drop] at hk
  exact hall (i + 1 + k) t (by omega) hk

/-! ### The tick loop -/

theorem mem_axisLoop (nb : Nat → Int → Nat) (aaSpace : Int) :
    ∀ (rest : List Tick) (i0 : Nat) (ld : Int) (idx : Nat) (t : Tick),
      (idx, t) ∈ axisLoop nb aaSpace i0 rest ld →
      i0 ≤ idx ∧ rest[idx - i0]? = some t ∧ nb idx aaSpace = idx := by
  intro rest
  induction rest with
  | nil => intro i0 ld idx t h; simp [axisLoop] at h
  | cons t0 rest ih =>
    intro i0 ld idx t h
    have tail : ∀ ld', (idx, t) ∈ axisLoop nb aaSpace (i0 + 1) rest ld' →
        i0 ≤ idx ∧ (t0 :: rest)[idx - i0]? = some t ∧ nb idx aaSpace = idx := by
      intro ld' h'
      obtain ⟨h1, h2, h3⟩ := ih (i0 + 1) ld' idx t h'
      refine ⟨by omega, ?_, h3⟩
      have e : idx - i0 = (idx - (i0 + 1)) + 1 := by omega
      rw [e, List.getElem?_cons_succ]
      exact h2
    simp only [axisLoop] at h
    split_ifs at h with hskip hnb
    · exact tail _ h
    · exact tail _ h
    · rcases List.mem_cons.1 h with h | h
      · obtain ⟨rfl, rfl⟩ := Prod.mk.inj h
        refine ⟨le_refl _, by simp, ?_⟩
        exact (not_not.1 hnb).symm
      · exact tail _ h

/-- After a tick at a positive position, the candidates closer than `aaSpace`
are passed over. -/
theorem axisLoop_skips (nb : Nat → Int → Nat) (aaSpace : Int) :
    ∀ (rest : List Tick) (i0 : Nat) (ld : Int) (k : Nat) (t : Tick), 0 < ld →
      (∀ k' ≤ k, ∀ t', rest[k']? = some t' → t'.Pos - ld < aaSpace) →
      (i0 + k, t) ∉ axisLoop nb aaSpace i0 rest ld := by
  intro rest
  induction rest with
  | nil => intro i0 ld k t _ _; simp [axisLoop]
  | cons t0 rest ih =>
    intro i0 ld k t hld hwin
    have h0 : t0.Pos - ld < aaSpace := hwin 0 (Nat.zero_le _) t0 (by simp)
    have hskip : ld > 0 ∧ t0.Pos - ld < aaSpace := ⟨hld, h0⟩
    simp only [axisLoop, hskip, and_self, if_true]
    cases k with
    | zero =>
      intro hmem
      have := (mem_axisLoop nb aaSpace rest (i0 + 1) ld _ _ hmem).1
      omega
    | succ k =>
      have e : i0 + (k + 1) = (i0 + 1) + k := by omega
      rw [e]
      apply ih (i0 + 1) ld k t hld
      intro k' hk' t' ht'
      exact hwin (k' + 1) (by omega) t' (by simpa using ht')

theorem axisLoop_drawn_then_skips (nb : Nat → Int → Nat) (aaSpace : Int) :
    ∀ (rest : List Tick) (i0 : Nat) (ld : Int) (a b : Nat) (ta tb : Tick), a < b →
      rest[a]? = some ta → 0 < ta.Pos →
      (∀ k t, a < k → k ≤ b → rest[k]? = some t → t.Pos - ta.Pos < aaSpace) →
      (i0 + a, ta) ∈ axisLoop nb aaSpace i0 rest ld →
      (i0 + b, tb) ∉ axisLoop nb aaSpace i0 rest ld := by
  intro rest
  induction rest with
  | nil => intro i0 ld a b ta tb _ ha; simp at ha
  | cons t0 rest ih =>
    intro i0 ld a b ta tb hab ha hpos hwin hmem
    cases a with
    | zero =>
      simp only [List.getElem?_cons_zero, Option.some.injEq] at ha
      subst ha
      have hb : i0 + b = (i0 + 1) + (b - 1) := by omega
      have hsk : ∀ ld', 0 < ld' → ld' = t0.Pos →
          (i0 + b, tb) ∉ axisLoop nb aaSpace (i0 + 1) rest ld' := by
        intro ld' hld' hEq
        rw [hb]
        apply axisLoop_skips nb aaSpace rest (i0 + 1) ld' (b - 1) tb hld'
        intro k' hk' t' ht'
        rw [hEq]
        exact hwin (k' + 1) t' (by omega) (by omega) (by simpa using ht')
      have hnot : ∀ ld', (i0 + 0, t0) ∉ axisLoop nb aaSpace (i0 + 1) rest ld' := by
        intro ld' h
        have := (mem_axisLoop nb aaSpace rest (i0 + 1) ld' _ _ h).1
        omega
      simp only [axisLoop] at hmem ⊢
      split_ifs at hmem ⊢ with hskip hnb
      · exact absurd hmem (hnot _)
      · exact absurd hmem (hnot _)
      · intro h
        rcases List.mem_cons.1 h with h | h
        · have := (Prod.mk.inj h).1
          omega
        · exact hsk t0.Pos hpos rfl h
    | succ a =>
      have ha' : rest[a]? = some ta := by simpa using ha
      have hb : i0 + b = (i0 + 1) + (b - 1) := by omega
      have ha2 : i0 + (a + 1) = (i0 + 1) + a := by omega
      have step : ∀ ld', (i0 + 1 + a, ta) ∈ axisLoop nb aaSpace (i0 + 1) rest ld' →
          (i0 + 1 + (b - 1), tb) ∉ axisLoop nb aaSpace (i0 + 1) rest ld' := by
        intro ld' h
        apply ih (i0 + 1) ld' a (b - 1) ta tb (by omega) ha' hpos _ h
        intro k t hk1 hk2 ht
        exact hwin (k + 1) t (by omega) (by omega) (by simpa using ht)
      rw [ha2] at hmem
      rw [hb]
      simp only [axisLoop] at hmem ⊢
      split_ifs at hmem ⊢ with hskip hnb
      · exact step _ hmem
      · exact step _ hmem
      · rcases List.mem_cons.1 hmem with h | h
        · have := (Prod.mk.inj h).1
          omega
        · intro h2
          rcases List.mem_cons.1 h2 with h2 | h2
          · have := (Prod.mk.inj h2).1
            omega
          · exact step _ h h2

theorem axisLoop_draws (nb : Nat → Int → Nat) (aaSpace : Int) (e : Tick) :
    ∀ (rest : List Tick) (i0 : Nat) (ld : Int) (k : Nat),
      rest[k]? = some e → nb (i0 + k) aaSpace = i0 + k →
      (0 < ld → aaSpace ≤ e.Pos - ld) →
      (∀ k' t, k' < k → rest[k']? = some t → nb (i0 + k') aaSpace = i0 + k' →
        0 < t.Pos → aaSpace ≤ e.Pos - t.Pos) →
      (i0 + k, e) ∈ axisLoop nb aaSpace i0 rest ld := by
  intro rest
  induction rest with
  | nil => intro i0 ld k hk; simp at hk
  | cons t0 rest ih =>
    intro i0 ld k hk hnb hld hbefore
    cases k with
    | zero =>
      simp only [List.getElem?_cons_zero, Option.some.injEq] at hk
      subst hk
      have h1 : ¬ (ld > 0 ∧ t0.Pos - ld < aaSpace) := by
        rintro ⟨h, h'⟩
        have := hld h
        omega
      have h2 : ¬ (i0 ≠ nb i0 aaSpace) := by
        simp only [Nat.add_zero] at hnb
        simp [hnb]
      simp only [axisLoop, h1, h2, if_false, Nat.add_zero]
      exact List.mem_cons_self _ _
    | succ k =>
      have hk' : rest[k]? = some e := by simpa using hk
      have e1 : i0 + (k + 1) = (i0 + 1) + k := by omega
      have step : ∀ ld', (0 < ld' → aaSpace ≤ e.Pos - ld') →
          (i0 + 1 + k, e) ∈ axisLoop nb aaSpace (i0 + 1) rest ld' := by
        intro ld' hld'
        apply ih (i0 + 1) ld' k hk' (by rw [← e1]; exact hnb) hld'
        intro k' t hk1 ht hnb' hpos
        have e2 : i0 + 1 + k' = i0 + (k' + 1) := by omega
        rw [e2] at hnb'
        exact hbefore (k' + 1) t (by omega) (by simpa using ht) hnb' hpos
      rw [e1]
      simp only [axisLoop]
      split_ifs with hskip hnb0
      · exact step _ hld
      · exact step _ hld
      · apply List.mem_cons_of_mem
        apply step
        intro hpos
        exact hbefore 0 t0 (by omega) (by simp) (by simpa using (not_not.1 hnb0).symm) hpos

theorem indexOf_le_of_getElem {α : Type} [DecidableEq α] (e : α) :
    ∀ (l : List α) (idx : Nat), l[idx]? = some e → l.indexOf e ≤ idx := by
  intro l
  induction l with
  | nil => intro idx h; simp at h
  | cons a l ih =>
    intro idx h
    by_cases hae : a = e
    · rw [List.indexOf_cons_eq _ hae]; omega
    · rw [List.indexOf_cons_ne _ hae]
      cases idx with
      | zero =>
        simp only [List.getElem?_cons_zero, Option.some.injEq] at h
        exact absurd h hae
      | succ idx =>
        have := ih idx (by simpa using h)
        omega

/-- A candidate that lies farthest and that no other candidate equals in
priority is drawn. -/
theorem axisDrawn_of_top (ts : List Tick) (aaSpace : Int) (e : Tick) (he : e ∈ ts)
    (hpos : ∀ t ∈ ts, t.Pos ≤ e.Pos)
    (hpri : ∀ t ∈ ts, t ≠ e → t.Pri < e.Pri) :
    (ts.indexOf e, e) ∈ axisDrawn ts aaSpace := by
  have hget : ts[ts.indexOf e]? = some e := by simpa using List.indexOf_get? he
  have hle : ∀ t ∈ ts, t.Pri ≤ e.Pri := by
    intro t ht
    by_cases h : t = e
    · rw [h]
    · exact le_of_lt (hpri t ht h)
  have hmem : ∀ {k : Nat} {t : Tick}, ts[k]? = some t → t ∈ ts := by
    intro k t h
    exact List.getElem?_mem h
  have hdraw := axisLoop_draws (NextBetter ts) aaSpace e ts 0 0 (ts.indexOf e) hget
    (by
      rw [Nat.zero_add]
      exact NextBetter_eq ts aaSpace _ e hget (fun k t _ hk => hle t (hmem hk)))
    (by intro h; omega)
    (by
      intro k' t hk' ht hnb hp
      rw [Nat.zero_add] at hnb
      by_contra hcon
      have hne : t ≠ e := by
        rintro rfl
        have := indexOf_le_of_getElem t ts k' ht
        omega
      refine NextBetter_ne ts aaSpace k' (ts.indexOf e) t e hk' ht hget
        (hpri t (hmem ht) hne) ?_ hnb
      intro k t' _ _ ht'
      have := hpos t' (hmem ht')
      omega)
  rw [Nat.zero_add] at hdraw
  exact hdraw

theorem insertTick_perm (t : Tick) : ∀ l : List Tick, (insertTick t l).Perm (t :: l) := by
  intro l
  induction l with
  | nil => exact List.Perm.refl _
  | cons u rest ih =>
    simp only [insertTick]
    split_ifs
    · exact ((List.Perm.cons u ih).trans (List.Perm.swap t u rest))
    · exact List.Perm.refl _

theorem sortTicks_perm : ∀ l : List Tick, (sortTicks l).Perm l := by
  intro l
  induction l with
  | nil => exact List.Perm.refl _
  | cons t rest ih =>
    show (insertTick t (sortTicks rest)).Perm (t :: rest)
    exact (insertTick_perm t _).trans (List.Perm.cons t ih)

theorem TickSorted_pos_le {ts : List Tick} (h : TickSorted ts) {i j : Nat} {ti tj : Tick}
    (hij : i < j) (hi : ts[i]? = some ti) (hj : ts[j]? = some tj) : ti.Pos ≤ tj.Pos := by
  obtain ⟨hil, hie⟩ := List.getElem?_eq_some.1 hi
  obtain ⟨hjl, hje⟩ := List.getElem?_eq_some.1 hj
  have := (List.pairwise_iff_getElem.1 h) i j hil hjl hij
  rw [hie, hje] at this
  unfold Less at this
  split_ifs at this with heq
  · omega
  · simp only [decide_eq_false_iff_not, not_lt] at this
    exact this

/-- Between two consecutive drawn ticks the spacing `aaSpace` is kept whenever
the first of them lies at a position greater than 0. -/
theorem axisLoop_spacing (nb : Nat → Int → Nat) (aaSpace : Int) :
    ∀ (rest : List Tick) (i0 : Nat) (ld : Int),
      List.Chain' (fun a b : Nat × Tick => 0 < a.2.Pos → aaSpace ≤ b.2.Pos - a.2.Pos)
          (axisLoop nb aaSpace i0 rest ld) ∧
        ∀ p ∈ (axisLoop nb aaSpace i0 rest ld).head?, 0 < ld → aaSpace ≤ p.2.Pos - ld := by
  intro rest
  induction rest with
  | nil => intro i0 ld; simp [axisLoop]
  | cons t0 rest ih =>
    intro i0 ld
    simp only [axisLoop]
    split_ifs with hskip hnb
    · exact ih _ _
    · exact ih _ _
    · obtain ⟨h1, h2⟩ := ih (i0 + 1) t0.Pos
      refine ⟨List.chain'_cons'.2 ⟨fun y hy hpos => h2 y hy hpos, h1⟩, ?_⟩
      intro p hp hld
      simp only [List.head?_cons, Option.mem_def, Option.some.injEq] at hp
      subst hp
      by_contra hcon
      exact hskip ⟨hld, by simpa using hcon⟩

/-- C7, the code at the failing input. Sequence length 100, one region from 0
to 3, `aaSpace = 10`: the sorted candidates are the region start (0, priority
5), the sequence start (0, priority 0), the region end (3, priority 5) and the
sequence end; the loop draws the ticks at 0, 3 and 100. The ticks at 0 and 3
are consecutive, closer than `aaSpace`, and are not the pair of sequence start
and sequence end: after the tick at position 0 the variable `lastDrawn` is 0
again and the test `lastDrawn > 0` switches the spacing check off. -/
theorem axis_spacing_example :
    sortTicks (axisCandidates sampleSettings 100 [] [] [⟨0, 3, "K", ""⟩]) =
        [⟨0, 5, 0, ""⟩, ⟨0, 0, 0, ""⟩, ⟨3, 5, 0, ""⟩, ⟨100, 99, 0, ""⟩] ∧
      TickSorted [⟨0, 5, 0, ""⟩, ⟨0, 0, 0, ""⟩, ⟨3, 5, 0, ""⟩, ⟨100, 99, 0, ""⟩] ∧
      axisDrawn [⟨0, 5, 0, ""⟩, ⟨0, 0, 0, ""⟩, ⟨3, 5, 0, ""⟩, ⟨100, 99, 0, ""⟩] 10 =
        [(0, ⟨0, 5, 0, ""⟩), (2, ⟨3, 5, 0, ""⟩), (3, ⟨100, 99, 0, ""⟩)] := by
  refine ⟨by decide, ?_, by decide⟩
  unfold TickSorted
  decide

/-- C8, counterexample. Sequence length 100, a lollipop at 5, a region from 12
to 60, a motif from 16 to 80, `aaSpace = 10`. The region start (12, priority 5)
and the motif start (16, priority 1) are closer than `aaSpace`; the loop passes
over the region start, which is too close to the tick drawn at 5, and draws the
motif start, the one of lower priority. -/
theorem axis_priority_counterexample :
    sortTicks (axisCandidates sampleSettings 100 [⟨5, 0, 1, "#ff0000"⟩]
        [⟨"coiled_coil", 16, 80⟩] [⟨12, 60, "K", ""⟩]) =
        [⟨0, 0, 0, ""⟩, ⟨5, 10, 0, ""⟩, ⟨12, 5, 0, ""⟩, ⟨16, 1, 0, ""⟩, ⟨60, 5, 0, ""⟩,
          ⟨80, 1, 0, ""⟩, ⟨100, 99, 0, ""⟩] ∧
      axisDrawn [⟨0, 0, 0, ""⟩, ⟨5, 10, 0, ""⟩, ⟨12, 5, 0, ""⟩, ⟨16, 1, 0, ""⟩, ⟨60, 5, 0, ""⟩,
          ⟨80, 1, 0, ""⟩, ⟨100, 99, 0, ""⟩] 10 =
        [(1, ⟨5, 10, 0, ""⟩), (3, ⟨16, 1, 0, ""⟩), (4, ⟨60, 5, 0, ""⟩), (5, ⟨80, 1, 0, ""⟩),
          (6, ⟨100, 99, 0, ""⟩)] ∧
      (16 : Int) - 12 < 10 ∧ (1 : Int) < 5 := by
  decide

/-- C8, amended. In a sorted candidate list with `aaSpace > 0`, let candidate
`i` come before candidate `j` with `position(j) - position(i) < aaSpace`. If
`j` has strictly higher priority, `i` is not drawn. If `i` has strictly higher
priority and is drawn at a position greater than 0, `j` is not drawn. -/
theorem axis_priority (ts : List Tick) (aaSpace : Int) (i j : Nat) (ti tj : Tick)
    (hsorted : TickSorted ts) (hspace : 0 < aaSpace) (hij : i < j)
    (hi : ts[i]? = some ti) (hj : ts[j]? = some tj) (hclose : tj.Pos - ti.Pos < aaSpace) :
    (ti.Pri < tj.Pri → (i, ti) ∉ axisDrawn ts aaSpace) ∧
      (tj.Pri < ti.Pri → 0 < ti.Pos → (i, ti) ∈ axisDrawn ts aaSpace →
        (j, tj) ∉ axisDrawn ts aaSpace) := by
  have hwin : ∀ k t, i < k → k ≤ j → ts[k]? = some t → t.Pos - ti.Pos < aaSpace := by
    intro k t _ hkj hk
    have : t.Pos ≤ tj.Pos := by
      rcases Nat.lt_or_eq_of_le hkj with h | h
      · exact TickSorted_pos_le hsorted h hk hj
      · subst h
        rw [hk] at hj
        rw [Option.some.inj hj]
    omega
  constructor
  · intro hpri hmem
    have := (mem_axisLoop (NextBetter ts) aaSpace ts 0 0 i ti hmem).2.2
    exact NextBetter_ne ts aaSpace i j ti tj hij hi hj hpri hwin this
  · intro _ hpos hmem
    have h := axisLoop_drawn_then_skips (NextBetter ts) aaSpace ts 0 0 i j ti tj hij hi hpos
      hwin (by rw [Nat.zero_add]; exact hmem)
    rw [Nat.zero_add] at h
    exact h

/-- Witness of the amended C8: the lollipop tick at 5 and the region start at 12. -/
theorem axis_priority_witness :
    ((⟨5, 10, 0, ""⟩ : Tick).Pri < (⟨12, 5, 0, ""⟩ : Tick).Pri →
        (1, (⟨5, 10, 0, ""⟩ : Tick)) ∉ axisDrawn [⟨0, 0, 0, ""⟩, ⟨5, 10, 0, ""⟩, ⟨12, 5, 0, ""⟩,
          ⟨16, 1, 0, ""⟩, ⟨60, 5, 0, ""⟩, ⟨80, 1, 0, ""⟩, ⟨100, 99, 0, ""⟩] 10) ∧
      ((⟨12, 5, 0, ""⟩ : Tick).Pri < (⟨5, 10, 0, ""⟩ : Tick).Pri →
        0 < (⟨5, 10, 0, ""⟩ : Tick).Pos →
        (1, (⟨5, 10, 0, ""⟩ : Tick)) ∈ axisDrawn [⟨0, 0, 0, ""⟩, ⟨5, 10, 0, ""⟩, ⟨12, 5, 0, ""⟩,
          ⟨16, 1, 0, ""⟩, ⟨60, 5, 0, ""⟩, ⟨80, 1, 0, ""⟩, ⟨100, 99, 0, ""⟩] 10 →
        (2, (⟨12, 5, 0, ""⟩ : Tick)) ∉ axisDrawn [⟨0, 0, 0, ""⟩, ⟨5, 10, 0, ""⟩, ⟨12, 5, 0, ""⟩,
          ⟨16, 1, 0, ""⟩, ⟨60, 5, 0, ""⟩, ⟨80, 1, 0, ""⟩, ⟨100, 99, 0, ""⟩] 10) :=
  axis_priority [⟨0, 0, 0, ""⟩, ⟨5, 10, 0, ""⟩, ⟨12, 5, 0, ""⟩, ⟨16, 1, 0, ""⟩, ⟨60, 5, 0, ""⟩,
      ⟨80, 1, 0, ""⟩, ⟨100, 99, 0, ""⟩] 10 1 2 ⟨5, 10, 0, ""⟩ ⟨12, 5, 0, ""⟩
    (by unfold TickSorted; decide) (by decide) (by decide) (by decide) (by decide) (by decide)

/-- Every candidate lies within the sequence and only the end tick has priority 99. -/
theorem mem_axisCandidates {s : Settings} {aaLen : Int} {pops : List Tick}
    {motifs : List Motif} {regions : List Region}
    (hlen : 0 ≤ aaLen)
    (hpops : ∀ p ∈ pops, 0 ≤ p.Pos ∧ p.Pos ≤ aaLen)
    (hmotifs : ∀ m ∈ motifs, 0 ≤ m.Start ∧ m.Start ≤ aaLen ∧ 0 ≤ m.End ∧ m.End ≤ aaLen)
    (hregions : ∀ r ∈ regions, 0 ≤ r.Start ∧ r.Start ≤ aaLen ∧ 0 ≤ r.End ∧ r.End ≤ aaLen)
    {t : Tick} (ht : t ∈ axisCandidates s aaLen pops motifs regions) :
    t.Pos ≤ aaLen ∧ (t ≠ endTick aaLen → t.Pri < 99) := by
  unfold axisCandidates at ht
  simp only [List.mem_append, List.mem_cons, List.mem_map, List.mem_flatMap,
    List.not_mem_nil, or_false] at ht
  rcases ht with ((ht | ht) | ht) | ht
  · rcases ht with rfl | rfl
    · exact ⟨hlen, fun _ => by decide⟩
    · exact ⟨le_refl _, fun h => absurd rfl h⟩
  · obtain ⟨p, hp, rfl⟩ := ht
    exact ⟨(hpops p hp).2, fun _ => by show (_ : Int) < 99; norm_num⟩
  · split_ifs at ht
    · simp at ht
    · simp only [List.mem_flatMap] at ht
      obtain ⟨m, hm, hmt⟩ := ht
      unfold motifTicks at hmt
      split_ifs at hmt
      · simp at hmt
      · simp at hmt
      · simp at hmt
      · simp only [List.mem_cons, List.not_mem_nil, or_false] at hmt
        rcases hmt with rfl | rfl
        · exact ⟨(hmotifs m hm).2.1, fun _ => by show (_ : Int) < 99; norm_num⟩
        · exact ⟨(hmotifs m hm).2.2.2, fun _ => by show (_ : Int) < 99; norm_num⟩
  · obtain ⟨r, hr, hrt⟩ := ht
    rcases hrt with rfl | rfl
    · exact ⟨(hregions r hr).2.1, fun _ => by show (_ : Int) < 99; norm_num⟩
    · exact ⟨(hregions r hr).2.2.2, fun _ => by show (_ : Int) < 99; norm_num⟩

/-- C9. Sequence-end tick: for every sequence length `aaLen >= 0`, all
markers, motifs and regions with coordinates in `[0, aaLen]` and every
`aaSpace`, the loop over the sorted candidates draws the tick of position
`aaLen` and priority 99 (every other candidate has a priority below 99, and
`NextBetter` is the lookahead of the design document). -/
theorem end_tick_drawn (s : Settings) (aaLen : Int) (pops : List Tick)
    (motifs : List Motif) (regions : List Region) (aaSpace : Int)
    (hlen : 0 ≤ aaLen)
    (hpops : ∀ p ∈ pops, 0 ≤ p.Pos ∧ p.Pos ≤ aaLen)
    (hmotifs : ∀ m ∈ motifs, 0 ≤ m.Start ∧ m.Start ≤ aaLen ∧ 0 ≤ m.End ∧ m.End ≤ aaLen)
    (hregions : ∀ r ∈ regions, 0 ≤ r.Start ∧ r.Start ≤ aaLen ∧ 0 ≤ r.End ∧ r.End ≤ aaLen) :
    ∃ i, (i, endTick aaLen) ∈
      axisDrawn (sortTicks (axisCandidates s aaLen pops motifs regions)) aaSpace := by
  have hperm := sortTicks_perm (axisCandidates s aaLen pops motifs regions)
  have he : endTick aaLen ∈ sortTicks (axisCandidates s aaLen pops motifs regions) := by
    apply hperm.mem_iff.2
    simp [axisCandidates, endTick]
  refine ⟨_, axisDrawn_of_top _ aaSpace (endTick aaLen) he ?_ ?_⟩
  · intro t ht
    exact (mem_axisCandidates hlen hpops hmotifs hregions (hperm.mem_iff.1 ht)).1
  · intro t ht hne
    exact (mem_axisCandidates hlen hpops hmotifs hregions (hperm.mem_iff.1 ht)).2 hne

/-- Witness of C9: a lollipop at 95 and a region that ends at the sequence end 100. -/
theorem end_tick_drawn_witness :
    ∃ i, (i, endTick 100) ∈
      axisDrawn (sortTicks (axisCandidates sampleSettings 100 [⟨95, 0, 1, "#ff0000"⟩]
        [⟨"coiled_coil", 16, 80⟩] [⟨12, 100, "K", ""⟩])) 10 :=
  end_tick_drawn sampleSettings 100 [⟨95, 0, 1, "#ff0000"⟩] [⟨"coiled_coil", 16, 80⟩]
    [⟨12, 100, "K", ""⟩] 10 (by decide) (by decide) (by decide) (by decide)

/-- C10, counterexample. The short label `Pkinase` fits a box 200 pixels wide,
but the description fits as well and is the text written. In a box 10 pixels
wide the short label `K` fits the width left by a text padding of 0 and no text
is written. -/
theorem label_not_always_short_example :
    ((sampleMeasure "Pkinase" : ℚ) < 200 - sampleSettings.TextPadding ∧
      regionLabel sampleSettings sampleMeasure samplePunct 200
        ⟨10, 30, "Pkinase", "Protein kinase domain"⟩ = some "Protein kinase domain") ∧
    ((sampleMeasure "K" : ℚ) < 10 - 0 ∧
      regionLabel { sampleSettings with TextPadding := 0 } sampleMeasure samplePunct 10
        ⟨10, 30, "K", ""⟩ = none) := by
  refine ⟨⟨?_, ?_⟩, ?_, ?_⟩
  · norm_num [sampleMeasure, sampleSettings, String.length]
  · have h1 : ("Protein kinase domain" : String).utf8ByteSize > 1 := by decide
    have h2 : (sampleMeasure "Protein kinase domain" : ℚ) <
        200 - sampleSettings.TextPadding := by
      norm_num [sampleMeasure, sampleSettings, String.length]
    unfold regionLabel
    rw [if_pos (by norm_num), if_pos ⟨h1, h2⟩]
  · norm_num [sampleMeasure, String.length]
  · unfold regionLabel
    rw [if_neg (by norm_num)]

/-- C10, amended. For a region box wider than 10 pixels whose description is
not written (it has at most one byte or does not fit), if the short label fits
(`measuredWidth(shortLabel) < swidth - TextPadding`), the text written is
exactly the short label `r.Text`. -/
theorem short_label_when_it_fits (s : Settings) (measure : String → Int)
    (isPunct : Char → Bool) (swidth : ℚ) (r : Region)
    (hwide : swidth > 10)
    (hdesc : ¬ (r.Description.utf8ByteSize > 1 ∧
      (measure r.Description : ℚ) < swidth - s.TextPadding))
    (hfit : (measure r.Text : ℚ) < swidth - s.TextPadding) :
    regionLabel s measure isPunct swidth r = some r.Text := by
  unfold regionLabel
  rw [if_pos hwide, if_neg hdesc, if_pos hfit]

/-- Witness of the amended C10: a box of 100 pixels, too narrow for the description. -/
theorem short_label_when_it_fits_witness :
    regionLabel sampleSettings sampleMeasure samplePunct 100
      ⟨10, 30, "Pkinase", "Protein kinase domain"⟩ = some "Pkinase" :=
  short_label_when_it_fits sampleSettings sampleMeasure samplePunct 100
    ⟨10, 30, "Pkinase", "Protein kinase domain"⟩ (by norm_num)
    (by norm_num [sampleMeasure, sampleSettings, String.length])
    (by norm_num [sampleMeasure, sampleSettings, String.length])

/-! ## Region labels (claims C11 to C13) -/

theorem wordLoop_eq_of_first_fit (measure : String → Int) (width : ℚ) :
    ∀ (l : List String) (post : String) (k : Nat), k < l.length →
      (measure (loopCandidate l post k) : ℚ) < width →
      (∀ j, j < k → ¬ (measure (loopCandidate l post j) : ℚ) < width) →
      wordLoop measure width l post = some (loopCandidate l post k) := by
  intro l
  induction l with
  | nil => intro post k hk; simp at hk
  | cons p rest ih =>
    intro post k hk hfit hfirst
    have hc0 : loopCandidate (p :: rest) post 0 =
        (if rest = [] then "" else "..") ++ p ++ post := by
      unfold loopCandidate
      cases rest <;> simp
    cases k with
    | zero =>
      rw [hc0] at hfit
      simp only [wordLoop, hfit, if_true, hc0]
    | succ k =>
      have h0 := hfirst 0 (Nat.succ_pos _)
      rw [hc0] at h0
      have hshift : ∀ j, loopCandidate (p :: rest) post (j + 1) = loopCandidate rest ".." j := by
        intro j
        unfold loopCandidate
        by_cases hj : j = 0
        · subst hj
          by_cases hl : rest.length = 1
          · simp [hl]
          · have hl2 : ¬ 1 = rest.length := fun e => hl e.symm
            simp [hl, hl2]
        · simp [hj]
      simp only [wordLoop, h0, if_false]
      rw [hshift]
      apply ih ".." k (by simpa using hk)
      · rw [← hshift]; exact hfit
      · intro j hj
        rw [← hshift]
        exact hfirst (j + 1) (by omega)

theorem wordLoop_of_some_fit (measure : String → Int) (width : ℚ) :
    ∀ (l : List String) (post : String),
      (∃ k, k < l.length ∧ (measure (loopCandidate l post k) : ℚ) < width) →
      ∃ k, k < l.length ∧ (measure (loopCandidate l post k) : ℚ) < width ∧
        (∀ j, j < k → ¬ (measure (loopCandidate l post j) : ℚ) < width) ∧
        wordLoop measure width l post = some (loopCandidate l post k) := by
  intro l post h
  classical
  have hex : ∃ k, k < l.length ∧ (measure (loopCandidate l post k) : ℚ) < width := h
  refine ⟨Nat.find hex, (Nat.find_spec hex).1, (Nat.find_spec hex).2, ?_, ?_⟩
  · intro j hj hfit
    have hjl : j < l.length := lt_trans hj (Nat.find_spec hex).1
    exact Nat.find_min hex hj ⟨hjl, hfit⟩
  · apply wordLoop_eq_of_first_fit measure width l post _ (Nat.find_spec hex).1
      (Nat.find_spec hex).2
    intro j hj hfit
    have hjl : j < l.length := lt_trans hj (Nat.find_spec hex).1
    exact Nat.find_min hex hj ⟨hjl, hfit⟩

theorem wordLoop_fits (measure : String → Int) (width : ℚ) :
    ∀ (l : List String) (post txt : String),
      wordLoop measure width l post = some txt → (measure txt : ℚ) < width := by
  intro l
  induction l with
  | nil => intro post txt h; simp [wordLoop] at h
  | cons p rest ih =>
    intro post txt h
    simp only [wordLoop] at h
    by_cases hfit : (measure ((if rest = [] then "" else "..") ++ p ++ post) : ℚ) < width
    · rw [if_pos hfit] at h
      rw [← Option.some.inj h]; exact hfit
    · rw [if_neg hfit] at h
      exact ih _ _ h

theorem loopCandidate_reverse (parts : List String) (k : Nat) (hk : k < parts.length) :
    loopCandidate parts.reverse "" k = wordCandidate parts (parts.length - 1 - k) := by
  unfold loopCandidate wordCandidate
  have h1 : parts.reverse.getD k "" = parts.getD (parts.length - 1 - k) "" := by
    simp only [List.getD_eq_getElem?_getD]
    rw [List.getElem?_reverse hk]
  have h2 : (k + 1 = parts.reverse.length) ↔ (parts.length - 1 - k = 0) := by
    rw [List.length_reverse]; omega
  have h3 : (k = 0) ↔ (parts.length - 1 - k + 1 = parts.length) := by omega
  rw [h1]
  by_cases a : k + 1 = parts.reverse.length <;> by_cases b : k = 0 <;>
    simp [a, b, h2.1, h3.1, (not_congr h2).1, (not_congr h3).1] <;> simp_all

/-- The word branch of lines 206-232 decides the text when it finds a fitting
candidate. -/
theorem regionLabel_of_wordLoop (s : Settings) (measure : String → Int)
    (isPunct : Char → Bool) (swidth : ℚ) (r : Region) (txt : String) (hwide : swidth > 10)
    (hdesc : ¬ (r.Description.utf8ByteSize > 1 ∧
      (measure r.Description : ℚ) < swidth - s.TextPadding))
    (hshort : ¬ (measure r.Text : ℚ) < swidth - s.TextPadding)
    (hpunct : r.Text.data.any isPunct = true)
    (hword : wordLoop measure (swidth - s.TextPadding)
      (FieldsFunc r.Text isPunct).reverse "" = some txt) :
    regionLabel s measure isPunct swidth r = some txt := by
  unfold regionLabel
  rw [if_pos hwide, if_neg hdesc, if_neg hshort]
  simp only [hpunct, if_true, hword]

/-- C11, counterexample. For the short label `A_BBBB_CCCC` in a box of 45
pixels only the candidate of the first token fits; the text written is `A..`
with a single `..` as suffix, where the claim asks for `A....` (one `..` per
skipped token), which would fit as well. In a box of 10 pixels the candidate
`A` of the label `A_` fits and no text is written. -/
theorem word_suffix_not_accumulated :
    (FieldsFunc "A_BBBB_CCCC" samplePunct = ["A", "BBBB", "CCCC"] ∧
      regionLabel sampleSettings sampleMeasure samplePunct 45
        ⟨10, 30, "A_BBBB_CCCC", ""⟩ = some "A.." ∧
      specWordCandidate ["A", "BBBB", "CCCC"] 0 = "A...." ∧
      (sampleMeasure "A...." : ℚ) < 45 - sampleSettings.TextPadding ∧
      ¬ (sampleMeasure (specWordCandidate ["A", "BBBB", "CCCC"] 1) : ℚ) <
        45 - sampleSettings.TextPadding ∧
      ¬ (sampleMeasure (specWordCandidate ["A", "BBBB", "CCCC"] 2) : ℚ) <
        45 - sampleSettings.TextPadding) ∧
    (FieldsFunc "A_" samplePunct = ["A"] ∧
      specWordCandidate ["A"] 0 = "A" ∧
      (sampleMeasure "A" : ℚ) < 10 - 0 ∧
      ¬ (sampleMeasure "A_" : ℚ) < 10 - 0 ∧
      regionLabel { sampleSettings with TextPadding := 0 } sampleMeasure samplePunct 10
        ⟨10, 30, "A_", ""⟩ = none) := by
  have hlen : ∀ str : String, (sampleMeasure str : ℚ) = 7 * (str.length : ℚ) := by
    intro str; simp [sampleMeasure]
  have hd : ¬ (("" : String).utf8ByteSize > 1 ∧
      (sampleMeasure "" : ℚ) < 45 - sampleSettings.TextPadding) := by
    intro h; exact absurd h.1 (by decide)
  have hs : ¬ (sampleMeasure "A_BBBB_CCCC" : ℚ) < 45 - sampleSettings.TextPadding := by
    rw [hlen]; norm_num [sampleSettings, String.length]
  have hw : wordLoop sampleMeasure (45 - sampleSettings.TextPadding)
      (FieldsFunc "A_BBBB_CCCC" samplePunct).reverse "" = some "A.." := by
    have e : (FieldsFunc "A_BBBB_CCCC" samplePunct).reverse = ["CCCC", "BBBB", "A"] := by decide
    have e0 : loopCandidate ["CCCC", "BBBB", "A"] "" 0 = "..CCCC" := by decide
    have e1 : loopCandidate ["CCCC", "BBBB", "A"] "" 1 = "..BBBB.." := by decide
    have e2 : loopCandidate ["CCCC", "BBBB", "A"] "" 2 = "A.." := by decide
    rw [e, ← e2]
    apply wordLoop_eq_of_first_fit sampleMeasure _ _ "" 2 (by decide)
    · rw [e2, hlen]; norm_num [sampleSettings, String.length]
    · intro j hj
      interval_cases j
      · rw [e0, hlen]; norm_num [sampleSettings, String.length]
      · rw [e1, hlen]; norm_num [sampleSettings, String.length]
  refine ⟨⟨by decide, ?_, by decide, ?_, ?_, ?_⟩, by decide, by decide, ?_, ?_, ?_⟩
  · exact regionLabel_of_wordLoop sampleSettings sampleMeasure samplePunct 45
      ⟨10, 30, "A_BBBB_CCCC", ""⟩ "A.." (by norm_num) hd hs (by decide) hw
  · rw [hlen]; norm_num [sampleSettings, String.length]
  · have e : specWordCandidate ["A", "BBBB", "CCCC"] 1 = "..BBBB.." := by decide
    rw [e, hlen]; norm_num [sampleSettings, String.length]
  · have e : specWordCandidate ["A", "BBBB", "CCCC"] 2 = "..CCCC" := by decide
    rw [e, hlen]; norm_num [sampleSettings, String.length]
  · rw [hlen]; norm_num [String.length]
  · rw [hlen]; norm_num [String.length]
  · unfold regionLabel
    rw [if_neg (by norm_num)]

/-- C11, amended. For a region box wider than 10 pixels whose description is
not written, whose short label does not fit and contains punctuation, with
tokens `t_0..t_{n-1}`: the text written is the candidate of the largest index
`i` whose measured width is below `W`, where the candidate of `t_i` is prefix +
`t_i` + suffix, the prefix being `..` when `i > 0` and empty when `i = 0`, the
suffix being a single `..` when `i < n - 1` and empty when `i = n - 1`. -/
theorem word_truncation (s : Settings) (measure : String → Int) (isPunct : Char → Bool)
    (swidth : ℚ) (r : Region) (i : Nat)
    (hwide : swidth > 10)
    (hdesc : ¬ (r.Description.utf8ByteSize > 1 ∧
      (measure r.Description : ℚ) < swidth - s.TextPadding))
    (hshort : ¬ (measure r.Text : ℚ) < swidth - s.TextPadding)
    (hpunct : r.Text.data.any isPunct = true)
    (hi : i < (FieldsFunc r.Text isPunct).length)
    (hfit : (measure (wordCandidate (FieldsFunc r.Text isPunct) i) : ℚ) <
      swidth - s.TextPadding)
    (hlater : ∀ j, i < j → j < (FieldsFunc r.Text isPunct).length →
      ¬ (measure (wordCandidate (FieldsFunc r.Text isPunct) j) : ℚ) <
        swidth - s.TextPadding) :
    regionLabel s measure isPunct swidth r =
      some (wordCandidate (FieldsFunc r.Text isPunct) i) := by
  have hk : (FieldsFunc r.Text isPunct).length - 1 - i <
      (FieldsFunc r.Text isPunct).reverse.length := by
    rw [List.length_reverse]; omega
  have hk' : (FieldsFunc r.Text isPunct).length - 1 - i <
      (FieldsFunc r.Text isPunct).length := by omega
  have hidx : (FieldsFunc r.Text isPunct).length - 1 -
      ((FieldsFunc r.Text isPunct).length - 1 - i) = i := by omega
  have hcand := loopCandidate_reverse (FieldsFunc r.Text isPunct) _ hk'
  rw [hidx] at hcand
  apply regionLabel_of_wordLoop s measure isPunct swidth r _ hwide hdesc hshort hpunct
  rw [← hcand]
  apply wordLoop_eq_of_first_fit measure _ _ "" _ hk
  · rw [hcand]; exact hfit
  · intro j hj
    have hjl : j < (FieldsFunc r.Text isPunct).length := by omega
    rw [loopCandidate_reverse _ j hjl]
    exact hlater _ (by omega) (by omega)

/-- Witness of the amended C11 on the label `A_BBBB_CCCC` in a box of 45 pixels. -/
theorem word_truncation_witness :
    regionLabel sampleSettings sampleMeasure samplePunct 45 ⟨10, 30, "A_BBBB_CCCC", ""⟩ =
      some (wordCandidate (FieldsFunc "A_BBBB_CCCC" samplePunct) 0) := by
  have hlen : ∀ str : String, (sampleMeasure str : ℚ) = 7 * (str.length : ℚ) := by
    intro str; simp [sampleMeasure]
  have e : FieldsFunc "A_BBBB_CCCC" samplePunct = ["A", "BBBB", "CCCC"] := by decide
  refine word_truncation sampleSettings sampleMeasure samplePunct 45
    ⟨10, 30, "A_BBBB_CCCC", ""⟩ 0 (by norm_num) ?_ ?_ (by decide) (by decide) ?_ ?_
  · intro h; exact absurd h.1 (by decide)
  · rw [hlen]; norm_num [sampleSettings, String.length]
  · show (sampleMeasure (wordCandidate (FieldsFunc "A_BBBB_CCCC" samplePunct) 0) : ℚ) < _
    rw [e]
    have e0 : wordCandidate ["A", "BBBB", "CCCC"] 0 = "A.." := by decide
    rw [e0, hlen]; norm_num [sampleSettings, String.length]
  · intro j hj hjl
    show ¬ (sampleMeasure (wordCandidate (FieldsFunc "A_BBBB_CCCC" samplePunct) j) : ℚ) < _
    rw [e] at hjl ⊢
    have hj3 : j < 3 := hjl
    interval_cases j
    · have e1 : wordCandidate ["A", "BBBB", "CCCC"] 1 = "..BBBB.." := by decide
      rw [e1, hlen]; norm_num [sampleSettings, String.length]
    · have e2 : wordCandidate ["A", "BBBB", "CCCC"] 2 = "..CCCC" := by decide
      rw [e2, hlen]; norm_num [sampleSettings, String.length]

/-- C13. Label degrade order: for a region box wider than 10 pixels whose
short label contains punctuation, if the description is not written, the full
short label does not fit and at least one word-boundary candidate fits, then
the word loop finds a fitting candidate and that candidate is the one text
written; the character truncation of lines 234-244 is not reached. -/
theorem word_truncation_before_characters (s : Settings) (measure : String → Int)
    (isPunct : Char → Bool) (swidth : ℚ) (r : Region)
    (hwide : swidth > 10)
    (hdesc : ¬ (r.Description.utf8ByteSize > 1 ∧
      (measure r.Description : ℚ) < swidth - s.TextPadding))
    (hshort : ¬ (measure r.Text : ℚ) < swidth - s.TextPadding)
    (hpunct : r.Text.data.any isPunct = true)
    (hsome : ∃ i, i < (FieldsFunc r.Text isPunct).length ∧
      (measure (wordCandidate (FieldsFunc r.Text isPunct) i) : ℚ) < swidth - s.TextPadding) :
    ∃ i, i < (FieldsFunc r.Text isPunct).length ∧
      (measure (wordCandidate (FieldsFunc r.Text isPunct) i) : ℚ) < swidth - s.TextPadding ∧
      wordLoop measure (swidth - s.TextPadding) (FieldsFunc r.Text isPunct).reverse "" =
        some (wordCandidate (FieldsFunc r.Text isPunct) i) ∧
      regionLabel s measure isPunct swidth r =
        some (wordCandidate (FieldsFunc r.Text isPunct) i) := by
  obtain ⟨i, hi, hfit⟩ := hsome
  have hex : ∃ k, k < (FieldsFunc r.Text isPunct).reverse.length ∧
      (measure (loopCandidate (FieldsFunc r.Text isPunct).reverse "" k) : ℚ) <
        swidth - s.TextPadding := by
    refine ⟨(FieldsFunc r.Text isPunct).length - 1 - i, by rw [List.length_reverse]; omega, ?_⟩
    rw [loopCandidate_reverse _ _ (by omega)]
    have hidx : (FieldsFunc r.Text isPunct).length - 1 -
        ((FieldsFunc r.Text isPunct).length - 1 - i) = i := by omega
    rw [hidx]; exact hfit
  obtain ⟨k, hk, hkfit, -, hloop⟩ := wordLoop_of_some_fit measure _ _ "" hex
  rw [List.length_reverse] at hk
  rw [loopCandidate_reverse _ k hk] at hkfit hloop
  exact ⟨_, by omega, hkfit, hloop,
    regionLabel_of_wordLoop s measure isPunct swidth r _ hwide hdesc hshort hpunct hloop⟩

/-- Witness of C13 on the label `A_BBBB_CCCC` in a box of 45 pixels. -/
theorem word_truncation_before_characters_witness :
    ∃ i, i < (FieldsFunc "A_BBBB_CCCC" samplePunct).length ∧
      (sampleMeasure (wordCandidate (FieldsFunc "A_BBBB_CCCC" samplePunct) i) : ℚ) <
        45 - sampleSettings.TextPadding ∧
      wordLoop sampleMeasure (45 - sampleSettings.TextPadding)
          (FieldsFunc "A_BBBB_CCCC" samplePunct).reverse "" =
        some (wordCandidate (FieldsFunc "A_BBBB_CCCC" samplePunct) i) ∧
      regionLabel sampleSettings sampleMeasure samplePunct 45 ⟨10, 30, "A_BBBB_CCCC", ""⟩ =
        some (wordCandidate (FieldsFunc "A_BBBB_CCCC" samplePunct) i) := by
  have hlen : ∀ str : String, (sampleMeasure str : ℚ) = 7 * (str.length : ℚ) := by
    intro str; simp [sampleMeasure]
  have e : FieldsFunc "A_BBBB_CCCC" samplePunct = ["A", "BBBB", "CCCC"] := by decide
  refine word_truncation_before_characters sampleSettings sampleMeasure samplePunct 45
    ⟨10, 30, "A_BBBB_CCCC", ""⟩ (by norm_num) ?_ ?_ (by decide) ⟨0, by decide, ?_⟩
  · intro h; exact absurd h.1 (by decide)
  · rw [hlen]; norm_num [sampleSettings, String.length]
  · show (sampleMeasure (wordCandidate (FieldsFunc "A_BBBB_CCCC" samplePunct) 0) : ℚ) < _
    rw [e]
    have e0 : wordCandidate ["A", "BBBB", "CCCC"] 0 = "A.." := by decide
    rw [e0, hlen]; norm_num [sampleSettings, String.length]

/-- C12, the code at the failing input. With a text padding of 30 and a box
of 41 pixels (`W = 11`) no text of the label `Pkinase` fits, and the character
truncation still writes its last candidate `P..` of width 21; for the label
`PK` of two characters the loop body never runs and the label itself is
written, of width 14. -/
theorem unfitting_text_written :
    (regionLabel { sampleSettings with TextPadding := 30 } sampleMeasure samplePunct 41
        ⟨10, 30, "Pkinase", ""⟩ = some "P.." ∧
      ¬ (sampleMeasure "P.." : ℚ) < 41 - 30) ∧
    (regionLabel { sampleSettings with TextPadding := 30 } sampleMeasure samplePunct 41
        ⟨10, 30, "PK", ""⟩ = some "PK" ∧
      ¬ (sampleMeasure "PK" : ℚ) < 41 - 30) := by
  have hlen : ∀ str : String, (sampleMeasure str : ℚ) = 7 * (str.length : ℚ) := by
    intro str; simp [sampleMeasure]
  have hd : ∀ W : ℚ, ¬ (("" : String).utf8ByteSize > 1 ∧ (sampleMeasure "" : ℚ) < W) := by
    intro W h; exact absurd h.1 (by decide)
  refine ⟨⟨?_, ?_⟩, ?_, ?_⟩
  · unfold regionLabel
    rw [if_pos (by norm_num), if_neg (hd _),
      if_neg (by rw [hlen]; norm_num [String.length])]
    have hp : ("Pkinase" : String).data.any samplePunct = false := by decide
    simp only [hp, Bool.false_eq_true, if_false]
    rw [if_pos (by norm_num)]
    have hl : ("Pkinase" : String).length - 2 = 5 := by decide
    rw [hl]
    have c5 : String.mk (TrimFunc (("Pkinase" : String).data.take 5) samplePunct) ++ ".." =
        "Pkina.." := by decide
    have c4 : String.mk (TrimFunc (("Pkinase" : String).data.take 4) samplePunct) ++ ".." =
        "Pkin.." := by decide
    have c3 : String.mk (TrimFunc (("Pkinase" : String).data.take 3) samplePunct) ++ ".." =
        "Pki.." := by decide
    have c2 : String.mk (TrimFunc (("Pkinase" : String).data.take 2) samplePunct) ++ ".." =
        "Pk.." := by decide
    have c1 : String.mk (TrimFunc (("Pkinase" : String).data.take 1) samplePunct) ++ ".." =
        "P.." := by decide
    simp only [charLoop, c5, c4, c3, c2, c1]
    norm_num [hlen, String.length]
  · rw [hlen]; norm_num [String.length]
  · unfold regionLabel
    rw [if_pos (by norm_num), if_neg (hd _),
      if_neg (by rw [hlen]; norm_num [String.length])]
    have hp : ("PK" : String).data.any samplePunct = false := by decide
    simp only [hp, Bool.false_eq_true, if_false]
    rw [if_pos (by norm_num)]
    have hl : ("PK" : String).length - 2 = 0 := by decide
    rw [hl]
    simp only [charLoop]
  · rw [hlen]; norm_num [String.length]

/-- A text written into a box of at most 40 pixels fits the box. -/
theorem regionLabel_fits_of_narrow (s : Settings) (measure : String → Int)
    (isPunct : Char → Bool) (swidth : ℚ) (r : Region) (txt : String)
    (hnarrow : swidth ≤ 40) (h : regionLabel s measure isPunct swidth r = some txt) :
    (measure txt : ℚ) < swidth - s.TextPadding := by
  have h40 : ¬ swidth > 40 := not_lt.2 hnarrow
  unfold regionLabel at h
  by_cases h1 : swidth > 10
  · rw [if_pos h1] at h
    by_cases h2 : r.Description.utf8ByteSize > 1 ∧
        (measure r.Description : ℚ) < swidth - s.TextPadding
    · rw [if_pos h2] at h
      rw [← Option.some.inj h]; exact h2.2
    · rw [if_neg h2] at h
      by_cases h3 : (measure r.Text : ℚ) < swidth - s.TextPadding
      · rw [if_pos h3] at h
        rw [← Option.some.inj h]; exact h3
      · rw [if_neg h3] at h
        simp only [h40, if_false] at h
        by_cases hp : r.Text.data.any isPunct = true
        · simp only [hp, if_true] at h
          cases hw : wordLoop measure (swidth - s.TextPadding)
              (FieldsFunc r.Text isPunct).reverse "" with
          | none => simp [hw] at h
          | some t =>
            simp only [hw, Option.some.injEq] at h
            rw [← h]
            exact wordLoop_fits _ _ _ _ _ hw
        · simp [hp] at h
  · rw [if_neg h1] at h
    simp at h

/-! ## Settings, canvas height and lollipop placement (claims C14 to C17) -/

/-- C14, counterexample. For settings with `GraphicWidth = 0` and an automatic
width of 740, the field `GraphicWidth` is 740 after the call. -/
theorem graphicWidth_overwritten :
    ({ sampleSettings with GraphicWidth := 0 } : Settings).GraphicWidth = 0 ∧
      (settingsAfterDrawSVG (fun _ => 740) { sampleSettings with GraphicWidth := 0 }).GraphicWidth
        = 740 := by
  constructor
  · rfl
  · simp [settingsAfterDrawSVG]

/-- C14, amended. After `s.DrawSVG(w, changelist, g)` every field of `s`
other than `GraphicWidth` equals its value before the call; `GraphicWidth`
keeps its value when that is not 0 and holds the result of `s.AutoWidth(g)`
when it was 0. -/
theorem settings_unchanged_but_width (autoWidth : Settings → ℚ) (s : Settings) :
    (settingsAfterDrawSVG autoWidth s).GraphicWidth =
        (if s.GraphicWidth = 0 then autoWidth s else s.GraphicWidth) ∧
      (settingsAfterDrawSVG autoWidth s).Padding = s.Padding ∧
      (settingsAfterDrawSVG autoWidth s).ShowLabels = s.ShowLabels ∧
      (settingsAfterDrawSVG autoWidth s).HideAxis = s.HideAxis ∧
      (settingsAfterDrawSVG autoWidth s).HideMotifs = s.HideMotifs ∧
      (settingsAfterDrawSVG autoWidth s).HideDisordered = s.HideDisordered ∧
      (settingsAfterDrawSVG autoWidth s).SolidFillOnly = s.SolidFillOnly ∧
      (settingsAfterDrawSVG autoWidth s).DomainHeight = s.DomainHeight ∧
      (settingsAfterDrawSVG autoWidth s).BackboneHeight = s.BackboneHeight ∧
      (settingsAfterDrawSVG autoWidth s).MotifHeight = s.MotifHeight ∧
      (settingsAfterDrawSVG autoWidth s).AxisPadding = s.AxisPadding ∧
      (settingsAfterDrawSVG autoWidth s).AxisHeight = s.AxisHeight ∧
      (settingsAfterDrawSVG autoWidth s).LollipopRadius = s.LollipopRadius ∧
      (settingsAfterDrawSVG autoWidth s).LollipopHeight = s.LollipopHeight ∧
      (settingsAfterDrawSVG autoWidth s).TextPadding = s.TextPadding ∧
      (settingsAfterDrawSVG autoWidth s).SynonymousColor = s.SynonymousColor ∧
      (settingsAfterDrawSVG autoWidth s).MutationColor = s.MutationColor := by
  unfold settingsAfterDrawSVG
  by_cases h : s.GraphicWidth = 0
  · simp [h]
  · simp [h]

theorem maxStaggered_singleton (s : Settings) (radius : Tick → ℚ) (popSpace : Int)
    (m : Tick) : maxStaggered s radius popSpace [m] = s.LollipopRadius + s.LollipopHeight := by
  simp [maxStaggered, maxStaggeredLoop, stackHeight]

theorem sortTicks_singleton (m : Tick) : sortTicks [m] = [m] := rfl

/-- C15. Degenerate marker counts: with an empty change list the canvas
height is `DomainHeight + 2*Padding` (plus `AxisPadding + AxisHeight` when
`HideAxis` is false), the starting offset is `Padding` (plus `Padding` when
`ShowLabels`) and no lollipop is placed; when the aggregation yields exactly
one marker, `maxStaggered` is `LollipopRadius + LollipopHeight`, the extra
starting offset is 0 and the top anchor of the marker is `poptop`, that is the
starting offset plus `LollipopRadius`. -/
theorem degenerate_marker_counts (re : String → Option ChangePos) (tbl : Char → Char)
    (s : Settings) (radius : Tick → ℚ) (popSpace : Int) (changelist : List String)
    (st : AggState) (m : Tick)
    (hagg : aggregate re tbl s changelist = some st) (hone : st.pops = [m]) :
    staggerLayout re tbl s radius popSpace [] =
        some
          { pops := []
            ht := s.DomainHeight + s.Padding * 2 +
              (if s.HideAxis = true then 0 else s.AxisPadding + s.AxisHeight)
            startY := s.Padding + (if s.ShowLabels = true then s.Padding else 0)
            tops := [] } ∧
      maxStaggered s radius popSpace [m] = s.LollipopRadius + s.LollipopHeight ∧
      staggerLayout re tbl s radius popSpace changelist =
        some
          { pops := [m]
            ht := s.DomainHeight + s.Padding * 2 + (s.LollipopRadius + s.LollipopHeight) +
              (if s.HideAxis = true then 0 else s.AxisPadding + s.AxisHeight)
            startY := s.Padding + (if s.ShowLabels = true then s.Padding else 0) + 0
            tops := [s.Padding + (if s.ShowLabels = true then s.Padding else 0) + 0 +
              s.LollipopRadius] } := by
  refine ⟨?_, maxStaggered_singleton s radius popSpace m, ?_⟩
  · simp [staggerLayout, axisBand, startYInit]
  · have hne : changelist.length > 0 := by
      cases changelist with
      | nil =>
        simp only [aggregate, aggLoop, Option.some.injEq] at hagg
        rw [← hagg] at hone
        simp at hone
      | cons c cs => simp
    unfold staggerLayout
    rw [if_pos hne]
    simp only [hagg, hone, sortTicks_singleton, maxStaggered_singleton, sub_self,
      List.length_singleton, lollipopTops, topAnchor, axisBand, startYInit]
    simp

/-- Witness of C15: the change list `A10T`, `A10T` yields one marker. -/
theorem degenerate_marker_counts_witness :
    staggerLayout stripChangePos asciiOnly sampleSettings (sampleRadius sampleSettings) 5 [] =
        some
          { pops := []
            ht := sampleSettings.DomainHeight + sampleSettings.Padding * 2 +
              (if sampleSettings.HideAxis = true then 0
                else sampleSettings.AxisPadding + sampleSettings.AxisHeight)
            startY := sampleSettings.Padding +
              (if sampleSettings.ShowLabels = true then sampleSettings.Padding else 0)
            tops := [] } ∧
      maxStaggered sampleSettings (sampleRadius sampleSettings) 5 [⟨10, 0, 2, "#ff0000"⟩] =
        sampleSettings.LollipopRadius + sampleSettings.LollipopHeight ∧
      staggerLayout stripChangePos asciiOnly sampleSettings (sampleRadius sampleSettings) 5
          ["A10T", "A10T"] =
        some
          { pops := [⟨10, 0, 2, "#ff0000"⟩]
            ht := sampleSettings.DomainHeight + sampleSettings.Padding * 2 +
              (sampleSettings.LollipopRadius + sampleSettings.LollipopHeight) +
              (if sampleSettings.HideAxis = true then 0
                else sampleSettings.AxisPadding + sampleSettings.AxisHeight)
            startY := sampleSettings.Padding +
              (if sampleSettings.ShowLabels = true then sampleSettings.Padding else 0) + 0
            tops := [sampleSettings.Padding +
              (if sampleSettings.ShowLabels = true then sampleSettings.Padding else 0) + 0 +
              sampleSettings.LollipopRadius] } :=
  degenerate_marker_counts stripChangePos asciiOnly sampleSettings
    (sampleRadius sampleSettings) 5 ["A10T", "A10T"]
    ⟨["A10T", "A10T"], [("A10T#ff0000", 0)], [⟨10, 0, 2, "#ff0000"⟩]⟩
    ⟨10, 0, 2, "#ff0000"⟩ (by decide) rfl

theorem le_maxStaggeredLoop_of_mem (s : Settings) (radius : Tick → ℚ) (popSpace : Int)
    (a : Tick) (rest : List Tick) :
    ∀ (l1 : List Tick) (m : ℚ),
      stackHeight radius popSpace a rest (s.LollipopRadius + s.LollipopHeight) ≤
        maxStaggeredLoop s radius popSpace (l1 ++ a :: rest) m := by
  intro l1
  induction l1 with
  | nil =>
    intro m
    simp only [List.nil_append, maxStaggeredLoop]
    refine le_trans ?_ (le_maxStaggeredLoop s radius popSpace rest _)
    split_ifs <;> linarith
  | cons p l1 ih =>
    intro m
    simp only [List.cons_append, maxStaggeredLoop, List.append_eq]
    exact ih _

/-- C16, counterexample. In `float64` arithmetic, with `LollipopRadius = 4`,
`LollipopHeight = 1e18`, the radius 4 for every marker, `popSpace = 5` and the
position-sorted markers at 48 and 50: the baseline `4 + 1e18` rounds to `1e18`,
the increment is `0.5 + 4 * 3 = 12.5`, and adding it to the baseline rounds
back to the baseline, so `maxStaggered` equals the baseline and is not strictly
greater. With `LollipopHeight = 28` the same loop gives `44.5`. -/
theorem close_markers_absorbed_in_float64 :
    PosSorted [(⟨48, 0, 1, "#ff0000"⟩ : Tick), ⟨50, -1, 1, "#ff0000"⟩] ∧
      (50 : Int) - 48 ≤ 5 ∧
      (0 : ℚ) ≤ F64.toRat ⟨4, 0⟩ ∧
      F64.toRat ⟨3814697265625, 18⟩ = 10 ^ 18 ∧
      F64.add ⟨4, 0⟩ ⟨3814697265625, 18⟩ = ⟨7812500000000000, 7⟩ ∧
      F64.toRat ⟨7812500000000000, 7⟩ = 10 ^ 18 ∧
      F64.add ⟨1, -1⟩ (F64.mul ⟨4, 0⟩ ⟨3, 0⟩) = ⟨25, -1⟩ ∧
      F64.add ⟨7812500000000000, 7⟩ ⟨25, -1⟩ = ⟨7812500000000000, 7⟩ ∧
      maxStaggeredF ⟨4, 0⟩ ⟨3814697265625, 18⟩ (fun _ => ⟨4, 0⟩) 5
          [⟨48, 0, 1, "#ff0000"⟩, ⟨50, -1, 1, "#ff0000"⟩] =
        F64.add ⟨4, 0⟩ ⟨3814697265625, 18⟩ ∧
      F64.lt (F64.add ⟨4, 0⟩ ⟨3814697265625, 18⟩)
          (maxStaggeredF ⟨4, 0⟩ ⟨3814697265625, 18⟩ (fun _ => ⟨4, 0⟩) 5
            [⟨48, 0, 1, "#ff0000"⟩, ⟨50, -1, 1, "#ff0000"⟩]) = false ∧
      maxStaggeredF ⟨4, 0⟩ ⟨28, 0⟩ (fun _ => ⟨4, 0⟩) 5
          [⟨48, 0, 1, "#ff0000"⟩, ⟨50, -1, 1, "#ff0000"⟩] = ⟨89, -1⟩ := by
  have hbase : F64.add ⟨4, 0⟩ ⟨3814697265625, 18⟩ = ⟨7812500000000000, 7⟩ := by decide
  have hmax : maxStaggeredF ⟨4, 0⟩ ⟨3814697265625, 18⟩ (fun _ => ⟨4, 0⟩) 5
      [⟨48, 0, 1, "#ff0000"⟩, ⟨50, -1, 1, "#ff0000"⟩] = ⟨7812500000000000, 7⟩ := by decide
  refine ⟨by simp [PosSorted], by decide, by norm_num [F64.toRat], by norm_num [F64.toRat],
    hbase, by norm_num [F64.toRat], by decide, by decide, ?_, ?_, by decide⟩
  · rw [hmax, hbase]
  · rw [hmax, hbase]
    decide

/-- C16, amended. Close markers raise the stack, with the arithmetic taken over
the rationals: for a position-sorted marker list with two markers `a` (earlier)
and `b` (later) whose positions differ by at most `popSpace`, and a radius
function without negative values, `maxStaggered` is strictly greater than
`LollipopRadius + LollipopHeight`, so the extra starting offset is strictly
positive. -/
theorem close_markers_raise_stack (s : Settings) (radius : Tick → ℚ) (popSpace : Int)
    (l1 l2 l3 : List Tick) (a b : Tick)
    (hsorted : PosSorted (l1 ++ a :: (l2 ++ b :: l3)))
    (hclose : b.Pos - a.Pos ≤ popSpace) (hrad : ∀ t, 0 ≤ radius t) :
    s.LollipopRadius + s.LollipopHeight <
        maxStaggered s radius popSpace (l1 ++ a :: (l2 ++ b :: l3)) ∧
      0 < maxStaggered s radius popSpace (l1 ++ a :: (l2 ++ b :: l3)) -
        (s.LollipopRadius + s.LollipopHeight) := by
  have hmem : ∀ q ∈ l2 ++ b :: l3, a.Pos ≤ q.Pos := by
    unfold PosSorted at hsorted
    have h1 := (List.pairwise_append.1 hsorted).2.1
    exact fun q hq => (List.pairwise_cons.1 h1).1 q hq
  have hl2 : ∀ q ∈ l2, q.Pos ≤ b.Pos := by
    unfold PosSorted at hsorted
    have h1 := (List.pairwise_append.1 hsorted).2.1
    have h2 := (List.pairwise_cons.1 h1).2
    have h3 := (List.pairwise_append.1 h2).2.2
    exact fun q hq => h3 q hq b (by simp)
  have hstep : s.LollipopRadius + s.LollipopHeight + (1 / 2 + radius a * 3) ≤
      stackHeight radius popSpace a (l2 ++ b :: l3) (s.LollipopRadius + s.LollipopHeight) := by
    cases l2 with
    | nil =>
      have hnf : ¬ b.Pos - a.Pos > popSpace := by omega
      simp only [List.nil_append, stackHeight, hnf, if_false]
      exact le_stackHeight radius popSpace a (hrad a) _ _
    | cons q l2 =>
      have hq := hl2 q (by simp)
      have hnf : ¬ q.Pos - a.Pos > popSpace := by omega
      simp only [List.cons_append, stackHeight, hnf, if_false]
      exact le_stackHeight radius popSpace a (hrad a) _ _
  have hle := le_maxStaggeredLoop_of_mem s radius popSpace a (l2 ++ b :: l3) l1
    (s.LollipopRadius + s.LollipopHeight)
  have hpos := hrad a
  unfold maxStaggered
  constructor <;> linarith

theorem sampleRadius_nonneg (t : Tick) : 0 ≤ sampleRadius sampleSettings t := by
  unfold sampleRadius
  split_ifs with h
  · norm_num [sampleSettings]
  · have : (1 : ℚ) ≤ (t.Cnt : ℚ) := by
      have : (1 : Int) ≤ t.Cnt := by omega
      exact_mod_cast this
    norm_num [sampleSettings]
    linarith

theorem sampleRadius_mono (t u : Tick) (h : t.Cnt ≤ u.Cnt) :
    sampleRadius sampleSettings t ≤ sampleRadius sampleSettings u := by
  have hc : (t.Cnt : ℚ) ≤ (u.Cnt : ℚ) := by exact_mod_cast h
  unfold sampleRadius
  split_ifs with h1 h2 h2
  · exact le_refl _
  · have : (1 : ℚ) ≤ (u.Cnt : ℚ) := by
      have : (1 : Int) ≤ u.Cnt := by omega
      exact_mod_cast this
    linarith
  · omega
  · linarith

/-- Witness of the amended C16: markers at 48 and 50 with `popSpace = 5`. -/
theorem close_markers_raise_stack_witness :
    sampleSettings.LollipopRadius + sampleSettings.LollipopHeight <
        maxStaggered sampleSettings (sampleRadius sampleSettings) 5
          ([] ++ ⟨48, 0, 1, "#ff0000"⟩ :: ([] ++ ⟨50, -1, 1, "#ff0000"⟩ :: [])) ∧
      0 < maxStaggered sampleSettings (sampleRadius sampleSettings) 5
          ([] ++ ⟨48, 0, 1, "#ff0000"⟩ :: ([] ++ ⟨50, -1, 1, "#ff0000"⟩ :: [])) -
        (sampleSettings.LollipopRadius + sampleSettings.LollipopHeight) :=
  close_markers_raise_stack sampleSettings (sampleRadius sampleSettings) 5 [] [] []
    ⟨48, 0, 1, "#ff0000"⟩ ⟨50, -1, 1, "#ff0000"⟩ (by simp [PosSorted]) (by decide)
    sampleRadius_nonneg

/-- C17, the code at the failing input. The change list `A10T`, `A11T@5` gives
the sorted markers at 10 (count 1) and 11 (count 5); with `popSpace = 5` and a
radius function that is non-negative and non-decreasing in the count, the
drawing loop computes the top anchor 7 for the marker at 10, which is less than
`Padding + LollipopRadius = 19`: the reserved height was computed with the
radius of the marker at 10 and the anchor with the radius of its neighbour. -/
theorem lollipop_above_reserved_space :
    (aggregate stripChangePos asciiOnly sampleSettings ["A10T", "A11T@5"]).map AggState.pops =
        some [⟨10, 0, 1, "#ff0000"⟩, ⟨11, -1, 5, "#ff0000"⟩] ∧
      PosSorted [⟨10, 0, 1, "#ff0000"⟩, ⟨11, -1, 5, "#ff0000"⟩] ∧
      (∀ t, 0 ≤ sampleRadius sampleSettings t) ∧
      (∀ t u : Tick, t.Cnt ≤ u.Cnt →
        sampleRadius sampleSettings t ≤ sampleRadius sampleSettings u) ∧
      (staggerLayout stripChangePos asciiOnly sampleSettings (sampleRadius sampleSettings) 5
          ["A10T", "A11T@5"]).map Canvas.tops = some [7, 63 / 2] ∧
      (7 : ℚ) < sampleSettings.Padding + sampleSettings.LollipopRadius := by
  refine ⟨by decide, by simp [PosSorted], sampleRadius_nonneg, sampleRadius_mono, ?_, ?_⟩
  · have hagg : aggregate stripChangePos asciiOnly sampleSettings ["A10T", "A11T@5"] =
        some ⟨["A10T", "A11T"], [("A11T#ff0000", 1), ("A10T#ff0000", 0)],
          [⟨10, 0, 1, "#ff0000"⟩, ⟨11, -1, 5, "#ff0000"⟩]⟩ := by decide
    have hsort : sortTicks [⟨10, 0, 1, "#ff0000"⟩, ⟨11, -1, 5, "#ff0000"⟩] =
        [⟨10, 0, 1, "#ff0000"⟩, ⟨11, -1, 5, "#ff0000"⟩] := by decide
    unfold staggerLayout
    rw [if_pos (by decide)]
    simp only [hagg, hsort, Option.map_some', Option.some.injEq]
    norm_num [maxStaggered, maxStaggeredLoop, stackHeight, lollipopTops, topAnchor,
      sampleRadius, sampleSettings, startYInit]
  · norm_num [sampleSettings]

/-! ## The change list after the loop (claims C18 and C19) -/

theorem aggInsert_changelist (st : AggState) (i : Nat) (d : Desc) :
    (aggInsert st i d).changelist = st.changelist.set i d.chg := by
  unfold aggInsert
  split <;> rfl

theorem aggDescs_changelist :
    ∀ (ds : List Desc) (pre post : List String) (pm : List (String × Nat)) (pops : List Tick),
      post.length = ds.length →
      (aggDescs pre.length ds ⟨pre ++ post, pm, pops⟩).changelist = pre ++ ds.map Desc.chg := by
  intro ds
  induction ds with
  | nil =>
    intro pre post pm pops h
    have : post = [] := List.length_eq_zero.1 (by simpa using h)
    simp [aggDescs, this]
  | cons d ds ih =>
    intro pre post pm pops h
    cases post with
    | nil => simp at h
    | cons p post =>
      have hlen : post.length = ds.length := by simpa using h
      have hset : (pre ++ p :: post).set pre.length d.chg = (pre ++ [d.chg]) ++ post := by
        simp
      have hst : aggInsert ⟨pre ++ p :: post, pm, pops⟩ pre.length d =
          ⟨(pre ++ [d.chg]) ++ post, (aggInsert ⟨pre ++ p :: post, pm, pops⟩ pre.length d).popMatch,
            (aggInsert ⟨pre ++ p :: post, pm, pops⟩ pre.length d).pops⟩ := by
        have := aggInsert_changelist ⟨pre ++ p :: post, pm, pops⟩ pre.length d
        rw [hset] at this
        cases hh : aggInsert ⟨pre ++ p :: post, pm, pops⟩ pre.length d with
        | mk c m q =>
          rw [hh] at this
          simp only at this
          rw [this]
      simp only [aggDescs]
      rw [hst]
      have hl : pre.length + 1 = (pre ++ [d.chg]).length := by simp
      rw [hl, ih (pre ++ [d.chg]) post _ _ hlen]
      simp

theorem splitColour_no_at (col0 : String) {l : List Char} (h : '@' ∉ l) :
    '@' ∉ (splitColour col0 l).2 := by
  unfold splitColour
  split
  · rename_i parts hs
    have := @splitFirst_eq_some _ _ parts.1 parts.2 hs
    intro hmem
    apply h
    rw [this.1]
    exact List.mem_append_left _ hmem
  · exact h

theorem splitCount_no_at (l : List Char) : '@' ∉ (splitCount l).2 := by
  unfold splitCount
  split
  · rename_i parts hs
    exact (@splitFirst_eq_some _ _ parts.1 parts.2 hs).2
  · rename_i hs
    exact splitFirst_eq_none.1 hs

theorem parseChange_chg_no_at {re : String → Option ChangePos} {tbl : Char → Char}
    {s : Settings} {chg : String} {d : Desc} (h : parseChange re tbl s chg = some d) :
    '@' ∉ d.chg.data := by
  cases hre : re chg with
  | none => rw [parseChange_eq_none.2 hre] at h; simp at h
  | some cpos =>
    rw [parseChange_of_match tbl s hre] at h
    rw [← Option.some.inj h]
    exact splitColour_no_at _ (splitCount_no_at _)

/-- C18. Negative-priority back-reference: for every change list whose
descriptors are all matched, every marker of the sorted list has `Pri = -i` with
`0 <= i < len(changelist)`, and the entry `changelist[i]` after the loop is the
stripped label (without `@` and `#`) of descriptor `i`, which is the first
descriptor with the key of the marker. -/
theorem back_reference_safe (re : String → Option ChangePos) (tbl : Char → Char)
    (s : Settings) (changelist : List String)
    (hmatch : ∀ chg ∈ changelist, re chg ≠ none) :
    ∃ ds st, parseAll re tbl s changelist = some ds ∧
      aggregate re tbl s changelist = some st ∧
      st.changelist.length = changelist.length ∧
      ∀ pop ∈ sortTicks st.pops, ∃ (i : Nat) (d : Desc),
        pop.Pri = -(i : Int) ∧ i < st.changelist.length ∧
        ds[i]? = some d ∧ st.changelist[i]? = some d.chg ∧
        '@' ∉ d.chg.data ∧ '#' ∉ d.chg.data ∧
        (ds.map Desc.key).indexOf d.key = i ∧ pop = markerOf ds d.key := by
  obtain ⟨ds, hds⟩ := parseAll_some re tbl s changelist hmatch
  have hr : ∀ d ∈ ds, InIntRange d.cnt := by
    intro d hd
    obtain ⟨chg, -, hp⟩ := parseAll_mem hds d hd
    exact parseChange_cnt_inRange hp
  have hlen := parseAll_length hds
  have hcl : (aggDescs 0 ds ⟨changelist, [], []⟩).changelist = ds.map Desc.chg := by
    have := aggDescs_changelist ds [] changelist [] [] hlen.symm
    simpa using this
  refine ⟨ds, aggDescs 0 ds ⟨changelist, [], []⟩, hds, aggLoop_eq_aggDescs hds 0 _, ?_, ?_⟩
  · rw [hcl, List.length_map, hlen]
  · intro pop hpop
    have hpop' : pop ∈ (aggDescs 0 ds ⟨changelist, [], []⟩).pops :=
      (sortTicks_perm _).mem_iff.1 hpop
    rw [(aggDescs_spec changelist ds hr).1] at hpop'
    obtain ⟨k, hk, rfl⟩ := List.mem_map.1 hpop'
    have hk' : k ∈ ds.map Desc.key := (mem_firstOccurrences _ _).1 hk
    have hidx : (ds.map Desc.key).indexOf k < ds.length := by
      simpa using List.indexOf_lt_length.2 hk'
    have hkey : (ds.map Desc.key)[(ds.map Desc.key).indexOf k]? = some k := by
      simpa using List.indexOf_get? hk'
    obtain ⟨d, hd⟩ : ∃ d, ds[(ds.map Desc.key).indexOf k]? = some d :=
      ⟨ds[(ds.map Desc.key).indexOf k], List.getElem?_eq_getElem hidx⟩
    have hdk : d.key = k := by
      rw [List.getElem?_map, hd] at hkey
      simpa using hkey
    obtain ⟨chg, -, hp⟩ := parseAll_mem hds d (List.getElem?_mem hd)
    refine ⟨(ds.map Desc.key).indexOf k, d, rfl, ?_, hd, ?_, parseChange_chg_no_at hp,
      parseChange_chg_no_hash hp, by rw [hdk], by rw [hdk]⟩
    · rw [hcl, List.length_map]; exact hidx
    · rw [hcl, List.getElem?_map, hd]; rfl

/-- Witness of C18 on a change list with count and colour suffixes. -/
theorem back_reference_safe_witness :
    ∃ ds st,
      parseAll stripChangePos asciiOnly sampleSettings ["A10T#00FF00@3", "G50C@2"] = some ds ∧
      aggregate stripChangePos asciiOnly sampleSettings ["A10T#00FF00@3", "G50C@2"] = some st ∧
      st.changelist.length = ["A10T#00FF00@3", "G50C@2"].length ∧
      ∀ pop ∈ sortTicks st.pops, ∃ (i : Nat) (d : Desc),
        pop.Pri = -(i : Int) ∧ i < st.changelist.length ∧
        ds[i]? = some d ∧ st.changelist[i]? = some d.chg ∧
        '@' ∉ d.chg.data ∧ '#' ∉ d.chg.data ∧
        (ds.map Desc.key).indexOf d.key = i ∧ pop = markerOf ds d.key :=
  back_reference_safe stripChangePos asciiOnly sampleSettings ["A10T#00FF00@3", "G50C@2"]
    (by decide)

/-- C19, counterexample. The first run on `A10T`, `A10T`, `G50C@2` leaves the
change list `A10T`, `A10T`, `G50C` and builds a marker of count 2 at position
50; the second run, on the list as the first one left it, builds a marker of
count 1 there. -/
theorem second_run_differs :
    aggregate stripChangePos asciiOnly sampleSettings ["A10T", "A10T", "G50C@2"] =
        some ⟨["A10T", "A10T", "G50C"], [("G50C#ff0000", 1), ("A10T#ff0000", 0)],
          [⟨10, 0, 2, "#ff0000"⟩, ⟨50, -2, 2, "#ff0000"⟩]⟩ ∧
      aggregate stripChangePos asciiOnly sampleSettings ["A10T", "A10T", "G50C"] =
        some ⟨["A10T", "A10T", "G50C"], [("G50C#ff0000", 1), ("A10T#ff0000", 0)],
          [⟨10, 0, 2, "#ff0000"⟩, ⟨50, -2, 1, "#ff0000"⟩]⟩ := by
  decide

theorem parseChange_chg_of_plain {re : String → Option ChangePos} {tbl : Char → Char}
    {s : Settings} {chg : String} {d : Desc} (hat : '@' ∉ chg.data) (hhash : '#' ∉ chg.data)
    (h : parseChange re tbl s chg = some d) : d.chg = chg := by
  cases hre : re chg with
  | none => rw [parseChange_eq_none.2 hre] at h; simp at h
  | some cpos =>
    rw [parseChange_of_match tbl s hre] at h
    rw [← Option.some.inj h]
    simp only [splitCount_of_no_at hat, splitColour_of_no_hash _ hhash]

theorem parseAll_chg_of_plain {re : String → Option ChangePos} {tbl : Char → Char}
    {s : Settings} : ∀ {cl : List String} {ds : List Desc},
      (∀ chg ∈ cl, '@' ∉ chg.data ∧ '#' ∉ chg.data) →
      parseAll re tbl s cl = some ds → ds.map Desc.chg = cl := by
  intro cl
  induction cl with
  | nil =>
    intro ds _ h
    simp only [parseAll, Option.some.injEq] at h
    subst h; rfl
  | cons c cs ih =>
    intro ds hplain h
    cases hp : parseChange re tbl s c with
    | none => simp [parseAll, hp] at h
    | some d0 =>
      simp only [parseAll, hp, Option.map_eq_some'] at h
      obtain ⟨ds0, hds0, rfl⟩ := h
      have h1 := parseChange_chg_of_plain (hplain c (by simp)).1 (hplain c (by simp)).2 hp
      have h2 := ih (fun x hx => hplain x (List.mem_cons_of_mem _ hx)) hds0
      simp [h1, h2]

/-- C19, amended. For a change list whose descriptors are all matched and
carry neither an `@` nor a `#` suffix, the loop leaves the change list as it
was, and a second run on it produces the same state, hence the same markers, as
the first run. -/
theorem second_run_same_without_suffixes (re : String → Option ChangePos)
    (tbl : Char → Char) (s : Settings) (changelist : List String)
    (hmatch : ∀ chg ∈ changelist, re chg ≠ none)
    (hplain : ∀ chg ∈ changelist, '@' ∉ chg.data ∧ '#' ∉ chg.data) :
    ∃ st, aggregate re tbl s changelist = some st ∧
      st.changelist = changelist ∧
      aggregate re tbl s st.changelist = some st := by
  obtain ⟨ds, hds⟩ := parseAll_some re tbl s changelist hmatch
  have hlen := parseAll_length hds
  have hcl : (aggDescs 0 ds ⟨changelist, [], []⟩).changelist = changelist := by
    have := aggDescs_changelist ds [] changelist [] [] hlen.symm
    rw [parseAll_chg_of_plain hplain hds] at this
    simpa using this
  have hagg : aggregate re tbl s changelist = some (aggDescs 0 ds ⟨changelist, [], []⟩) :=
    aggLoop_eq_aggDescs hds 0 _
  refine ⟨_, hagg, hcl, ?_⟩
  rw [hcl]; exact hagg

/-- Witness of the amended C19 on a change list without suffixes. -/
theorem second_run_same_without_suffixes_witness :
    ∃ st, aggregate stripChangePos asciiOnly sampleSettings ["A10T", "A10T", "G50C"] = some st ∧
      st.changelist = ["A10T", "A10T", "G50C"] ∧
      aggregate stripChangePos asciiOnly sampleSettings st.changelist = some st :=
  second_run_same_without_suffixes stripChangePos asciiOnly sampleSettings
    ["A10T", "A10T", "G50C"] (by decide) (by decide)

end Lollipops
